import Mathlib

/-!
Verification of the lziprecover core against its natural-language
specification.  Each section embeds the relevant C++ functions as Lean
definitions (bytes are `Nat` values `< 256`, machine integers are `Nat`/`Int`
with explicit `% 2^64` where unsigned overflow matters) and proves or refutes
the frozen claims about them.
-/

set_option maxRecDepth 10000

/-! ## Basic constants (lzip.h) -/

def min_dictionary_size : Nat := 1 <<< 12
def max_dictionary_size : Nat := 1 <<< 29
def min_member_size : Nat := 36

def isvalid_ds (dictionary_size : Nat) : Bool :=
  min_dictionary_size ≤ dictionary_size && dictionary_size ≤ max_dictionary_size

/-- Two to the sixty-fourth: modulus of C++ `unsigned long long` arithmetic. -/
def w64 : Nat := 2 ^ 64

/-! ## Lzip_trailer (lzip.h lines 269-319)

A trailer is its 20 data bytes, embedded as a `List Nat` of length 20 whose
entries are `< 256`.  The accessors mirror the little-endian read loops. -/

/-- `get_le_bytes d off n` reads `n` little-endian bytes starting at `off`. -/
def get_le_bytes (d : List Nat) (off : Nat) : Nat → Nat
  | 0 => 0
  | n + 1 => d.getD off 0 + 256 * get_le_bytes d (off + 1) n

def Trailer.data_crc (d : List Nat) : Nat := get_le_bytes d 0 4

def Trailer.data_size (d : List Nat) : Nat := get_le_bytes d 4 8

def Trailer.member_size (d : List Nat) : Nat := get_le_bytes d 12 8

/-- `Lzip_trailer::check_consistency` (lzip.h lines 306-318).  All local
variables are C++ `unsigned long long`, hence the `% w64` wraps: `9 * dsize + 7`
may overflow, and `7090 * (msize - 26) - 1` may overflow and may wrap through
zero (the `+ w64 - 1` keeps the subtraction faithful to unsigned wrap). -/
def check_consistency (d : List Nat) : Bool :=
  let crc := Trailer.data_crc d
  let dsize := Trailer.data_size d
  if (crc == 0) != (dsize == 0) then false
  else
    let msize := Trailer.member_size d
    if msize < min_member_size then false
    else
      let mlimit := (9 * dsize + 7) % w64 / 8 + 36
      if mlimit > dsize && msize > mlimit then false
      else
        let dlimit := (7090 * (msize - 26) % w64 + (w64 - 1)) % w64
        if dlimit > msize && dsize > dlimit then false
        else true

/-- The claim's reading of the spec sentence: the two ratio bounds are imposed
"whenever that upper bound is finite", i.e. whenever the exact mathematical
value of the bound is representable in 64 bits. -/
def claimed_consistency (d : List Nat) : Prop :=
  let crc := Trailer.data_crc d
  let dsize := Trailer.data_size d
  let msize := Trailer.member_size d
  ((crc = 0) ↔ (dsize = 0)) ∧ min_member_size ≤ msize ∧
  ((9 * dsize + 7) / 8 + 36 < w64 → msize ≤ (9 * dsize + 7) / 8 + 36) ∧
  (7090 * (msize - 26) - 1 < w64 → dsize ≤ 7090 * (msize - 26) - 1)

instance (d : List Nat) : Decidable (claimed_consistency d) := by
  unfold claimed_consistency; infer_instance

/-- The amended reading: the first bound is imposed exactly when `9*dsize + 7`
does not overflow 64 bits, and the second bound is compared against the
64-bit-wrapped value `dlimit` exactly when that wrapped value exceeds
`member_size`. -/
def amended_consistency (d : List Nat) : Prop :=
  let crc := Trailer.data_crc d
  let dsize := Trailer.data_size d
  let msize := Trailer.member_size d
  let dlimit := (7090 * (msize - 26) % w64 + (w64 - 1)) % w64
  ((crc = 0) ↔ (dsize = 0)) ∧ min_member_size ≤ msize ∧
  (9 * dsize + 7 < w64 → msize ≤ (9 * dsize + 7) / 8 + 36) ∧
  (dlimit > msize → dsize ≤ dlimit)

theorem get_le_bytes_lt (d : List Nat) (hb : ∀ b ∈ d, b < 256) :
    ∀ n off, get_le_bytes d off n < 256 ^ n := by
  intro n
  induction n with
  | zero => intro off; simp [get_le_bytes]
  | succ n ih =>
    intro off
    have h1 : d.getD off 0 < 256 := by
      rcases Nat.lt_or_ge off d.length with h | h
      · rw [List.getD_eq_getElem d 0 h]; exact hb _ (d.getElem_mem h)
      · rw [List.getD_eq_default _ _ h]; norm_num
    have h2 := ih (off + 1)
    calc d.getD off 0 + 256 * get_le_bytes d (off + 1) n
        ≤ 255 + 256 * (256 ^ n - 1) := by
          have := Nat.le_sub_one_of_lt h2
          omega
      _ < 256 ^ (n + 1) := by
          have : 1 ≤ 256 ^ n := Nat.one_le_pow _ _ (by norm_num)
          rw [pow_succ]; omega

/-- C6 helper: the first wrapped guard `mlimit > dsize` holds exactly when
`9 * dsize + 7` does not overflow 64 bits. -/
theorem mlimit_guard_iff (dsize : Nat) (h : dsize < w64) :
    ((9 * dsize + 7) % w64 / 8 + 36 > dsize) ↔ 9 * dsize + 7 < w64 := by
  unfold w64 at *
  constructor
  · intro hg
    by_contra hov
    push_neg at hov
    have hqr := Nat.div_add_mod (9 * dsize + 7) (2 ^ 64)
    have hr : (9 * dsize + 7) % 2 ^ 64 < 2 ^ 64 := Nat.mod_lt _ (by norm_num)
    have hq : (9 * dsize + 7) / 2 ^ 64 ≤ 8 := by
      have : 9 * dsize + 7 < 9 * 2 ^ 64 := by omega
      omega
    omega
  · intro hno
    rw [Nat.mod_eq_of_lt hno]
    omega

/-- C6 (amended): `check_consistency` is equivalent to the amended predicate
(first ratio bound imposed iff `9*dsize+7` fits in 64 bits, second bound
compared against the wrapped `dlimit` whenever `dlimit > member_size`). -/
theorem C6_check_consistency_amended (d : List Nat) (hb : ∀ b ∈ d, b < 256) :
    check_consistency d = true ↔ amended_consistency d := by
  have hds : Trailer.data_size d < w64 := get_le_bytes_lt d hb 8 4
  have hml := mlimit_guard_iff (Trailer.data_size d) hds
  simp only [check_consistency, amended_consistency]
  split_ifs with h1 h2 h3 h4
  · simp only [bne_iff_ne, ne_eq, beq_iff_eq] at h1
    simp only [false_iff, not_and]
    intro hcrc
    exact absurd (by by_cases hx : Trailer.data_crc d = 0 <;>
      by_cases hy : Trailer.data_size d = 0 <;> simp [hx, hy] at hcrc ⊢) h1
  · simp only [false_iff, not_and]
    intro _ hms
    omega
  · simp only [Bool.and_eq_true, decide_eq_true_eq, gt_iff_lt] at h3
    obtain ⟨h3a, h3b⟩ := h3
    have hno := hml.mp h3a
    rw [Nat.mod_eq_of_lt hno] at h3b
    simp only [false_iff, not_and]
    intro _ _ hm _
    exact absurd (hm hno) (by omega)
  · simp only [Bool.and_eq_true, decide_eq_true_eq, gt_iff_lt] at h4
    simp only [false_iff, not_and]
    intro _ _ _ hd
    have := hd h4.1
    omega
  · simp only [bne_iff_ne, ne_eq, beq_iff_eq, not_not] at h1
    simp only [Bool.and_eq_true, decide_eq_true_eq, gt_iff_lt, not_and, not_lt] at h3 h4
    simp only [true_iff]
    refine ⟨?_, by omega, ?_, ?_⟩
    · by_cases hx : Trailer.data_crc d = 0 <;> by_cases hy : Trailer.data_size d = 0 <;>
        simp [hx, hy] at h1 ⊢
    · intro hno
      have := h3 (hml.mpr hno)
      rwa [Nat.mod_eq_of_lt hno] at this
    · intro hdl
      exact h4 hdl

/-- The concrete trailer refuting C6 as stated: crc = 1 (nonzero),
uncompressed size `2^64 - 1`, member size `2^63`. -/
def cexTrailer : List Nat :=
  [1, 0, 0, 0,
   255, 255, 255, 255, 255, 255, 255, 255,
   0, 0, 0, 0, 0, 0, 0, 128]

/-- C6 counterexample: on `cexTrailer` both ratio upper bounds overflow 64 bits
(so the claimed predicate imposes neither bound and holds), yet the code's
wrapped `dlimit` becomes `2^64 - 184341 > member_size` and the stored
uncompressed size exceeds it, so `check_consistency` returns false. -/
theorem C6_check_consistency_cex :
    check_consistency cexTrailer = false ∧ claimed_consistency cexTrailer := by
  constructor
  · decide
  · decide

/-- C6 witness: the amended equivalence applied to a concrete consistent
trailer (crc 1, uncompressed size 1, member size 36). -/
theorem C6_check_consistency_amended_witness :
    let t : List Nat :=
      [1, 0, 0, 0, 1, 0, 0, 0, 0, 0, 0, 0, 36, 0, 0, 0, 0, 0, 0, 0]
    (check_consistency t = true ↔ amended_consistency t) ∧
      check_consistency t = true :=
  ⟨C6_check_consistency_amended _ (by decide), by decide⟩

/-! ## Member_list (lzip.h lines 337-404)

`Block` is a pair of `long long` values; `Member_list::includes` walks the
forward and reverse range vectors. -/

structure Block where
  pos : Int
  size : Int
deriving Repr, DecidableEq

def Block.end_ (b : Block) : Int := b.pos + b.size

structure Member_list where
  damaged : Bool
  empty : Bool
  tdata : Bool
  isin : Bool
  rin : Bool
  range_vector : List Block
  rrange_vector : List Block

/-- One of the two range loops of `Member_list::includes` (lzip.h 389-403):
walk the vector in order; stop (`false`) at the first block whose `pos`
exceeds the searched index, return (`true`) at the first block whose `end`
exceeds it. -/
def range_loop (v : List Block) (x : Int) : Bool :=
  match v with
  | [] => false
  | b :: t => if b.pos > x then false
              else if b.end_ > x then true
              else range_loop t x

/-- `Member_list::includes` (lzip.h lines 389-403). -/
def Member_list.includes (ml : Member_list) (i blocks : Int) : Bool :=
  if range_loop ml.range_vector i then ml.isin
  else if 0 ≤ i && i < blocks && range_loop ml.rrange_vector (blocks - i - 1) then
    ml.rin
  else !ml.isin || !ml.rin

/-- Spec-side membership: the index lies in some block of the vector. -/
def in_ranges (v : List Block) (x : Int) : Prop :=
  ∃ b ∈ v, b.pos ≤ x ∧ x < b.end_

instance (v : List Block) (x : Int) : Decidable (in_ranges v x) := by
  unfold in_ranges; infer_instance

/-- The spec's membership predicate
`included(i, n) = (i ∈ fwd) ? in : (n − 1 − i ∈ rev) ? rin : (¬in ∨ ¬rin)`. -/
def spec_included (ml : Member_list) (i n : Int) : Bool :=
  if in_ranges ml.range_vector i then ml.isin
  else if 0 ≤ i ∧ i < n ∧ in_ranges ml.rrange_vector (n - 1 - i) then ml.rin
  else !ml.isin || !ml.rin

/-- A range vector as produced by `Member_list::parse_ml` (main.cc 250-291):
blocks have nonnegative size and each block starts at or after the end of the
previous one. -/
def sorted_ranges (v : List Block) : Prop :=
  (∀ b ∈ v, 0 ≤ b.size) ∧ v.Chain' (fun a b => a.end_ ≤ b.pos)

theorem chain_ends_le (b : Block) (t : List Block)
    (hsz : ∀ c ∈ b :: t, 0 ≤ c.size)
    (hch : (b :: t).Chain' (fun a c => a.end_ ≤ c.pos)) :
    ∀ c ∈ t, b.end_ ≤ c.pos := by
  induction t generalizing b with
  | nil => intro c hc; cases hc
  | cons d t2 ih =>
    intro c hc
    have hbd : b.end_ ≤ d.pos := (List.chain'_cons'.mp hch).1 d rfl
    rcases List.mem_cons.mp hc with rfl | hc2
    · exact hbd
    · have hd0 : 0 ≤ d.size := hsz d (by simp)
      have := ih d (fun c hc => hsz c (by
        rcases List.mem_cons.mp hc with rfl | h2
        · simp
        · simp [h2])) (List.chain'_cons'.mp hch).2 c hc2
      unfold Block.end_ at *
      omega

theorem range_loop_iff (v : List Block) (x : Int) (hs : sorted_ranges v) :
    range_loop v x = true ↔ in_ranges v x := by
  obtain ⟨hsz, hch⟩ := hs
  induction v with
  | nil => simp [range_loop, in_ranges]
  | cons b t ih =>
    have hb0 : 0 ≤ b.size := hsz b (by simp)
    have ih' := ih (fun c hc => hsz c (by simp [hc])) (List.chain'_cons'.mp hch).2
    unfold range_loop
    by_cases h1 : b.pos > x
    · rw [if_pos h1]
      refine iff_of_false (by simp) ?_
      rintro ⟨c, hc, hcx, hxc⟩
      rcases List.mem_cons.mp hc with rfl | hct
      · omega
      · have := chain_ends_le b t hsz hch c hct
        unfold Block.end_ at *
        omega
    · rw [if_neg h1]
      push_neg at h1
      by_cases h2 : b.end_ > x
      · rw [if_pos h2]
        simp only [true_iff]
        exact ⟨b, by simp, h1, h2⟩
      · rw [if_neg h2]
        push_neg at h2
        rw [ih']
        unfold in_ranges
        constructor
        · rintro ⟨c, hc, hx⟩; exact ⟨c, by simp [hc], hx⟩
        · rintro ⟨c, hc, hx⟩
          rcases List.mem_cons.mp hc with rfl | hct
          · omega
          · exact ⟨c, hct, hx⟩

/-- C8: for every `Member_list` whose two range vectors are as `parse_ml`
produces them (nonnegative sizes, starts chained after ends), `includes i n`
agrees with the spec's predicate `included(i, n)` at every `i` and `n`. -/
theorem C8_member_list_includes (ml : Member_list) (i n : Int)
    (hf : sorted_ranges ml.range_vector) (hr : sorted_ranges ml.rrange_vector) :
    ml.includes i n = spec_included ml i n := by
  unfold Member_list.includes spec_included
  have hfwd := range_loop_iff ml.range_vector i hf
  have hrev := range_loop_iff ml.rrange_vector (n - i - 1) hr
  have hidx : n - i - 1 = n - 1 - i := by ring
  by_cases h1 : range_loop ml.range_vector i = true
  · rw [if_pos h1, if_pos (hfwd.mp h1)]
  · rw [if_neg h1, if_neg (fun hc => h1 (hfwd.mpr hc))]
    by_cases h2 : 0 ≤ i ∧ i < n ∧ in_ranges ml.rrange_vector (n - 1 - i)
    · rw [if_pos h2, if_pos]
      simp only [Bool.and_eq_true, decide_eq_true_eq]
      exact ⟨⟨h2.1, h2.2.1⟩, hrev.mpr (by rw [hidx]; exact h2.2.2)⟩
    · rw [if_neg h2, if_neg]
      intro hc
      simp only [Bool.and_eq_true, decide_eq_true_eq] at hc
      exact h2 ⟨hc.1.1, hc.1.2, by rw [← hidx]; exact hrev.mp hc.2⟩

/-- C8 witness: a concrete selector, index and count. -/
theorem C8_member_list_includes_witness :
    let ml : Member_list :=
      { damaged := false, empty := false, tdata := false, isin := true,
        rin := false, range_vector := [⟨0, 2⟩, ⟨4, 3⟩], rrange_vector := [⟨1, 1⟩] }
    ml.includes 5 9 = spec_included ml 5 9 :=
  C8_member_list_includes _ 5 9 (by constructor <;> simp [Block.end_]) (by
    constructor <;> simp [Block.end_])

/-! ## FEC block sizes (fec.h lines 40-96, fec_create.cc lines 218-391)

`unsigned long` / `unsigned long long` values are `Nat`; the two `while`
loops of the `Coded_fbs` constructor are modelled by recursion (the second
one, whose termination depends on the unit size, by fuel), and the
`internal_error` exit becomes `none`. -/

def min_fbs : Nat := 512
def max_fbs : Nat := 1 <<< 47
def max_k8 : Nat := 128
def max_k16 : Nat := 32768
def max_nk16 : Nat := 2048

def isvalid_fbs (fbs : Nat) : Bool :=
  min_fbs ≤ fbs && fbs ≤ max_fbs && fbs % min_fbs == 0

def ceil_divide (size block_size : Nat) : Nat :=
  size / block_size + (if size % block_size > 0 then 1 else 0)

/-- First loop of the `Coded_fbs` constructor (fec.h line 77).  Every
iteration halves `m`, so for the 64-bit inputs of the C++ code 64 fuel steps
are never exhausted; the fuel-0 case is unreachable. -/
def cfbs_shrink : Nat → Nat → Nat → Nat × Nat
  | 0, m, e => (m, e)
  | fuel + 1, m, e =>
    if 2047 < m ∨ (1 < m ∧ e < 9) then cfbs_shrink fuel (m / 2) (e + 1)
    else (m, e)

/-- Third loop of the `Coded_fbs` constructor (fec.h line 79), with fuel:
for a non-power-of-two `unit_fbs` with a large odd factor the C++ loop does
not terminate, so the model returns `none` once the exponent can no longer
stay within the checked range. -/
def cfbs_align (unit_fbs : Nat) : Nat → Nat → Nat → Option (Nat × Nat)
  | 0, _, _ => none
  | fuel + 1, m, e =>
    if (m <<< e) % unit_fbs ≠ 0 then
      if m + 1 > 2047 then cfbs_align unit_fbs fuel ((m + 1) / 2) (e + 1)
      else cfbs_align unit_fbs fuel (m + 1) e
    else some (m, e)

/-- The `Coded_fbs` constructor (fec.h lines 73-85).  Returns the two stored
bytes `(data[0], data[1])`, or `none` where the C++ raises `internal_error`
(or where its third loop never terminates). -/
def Coded_fbs_make (fbs unit_fbs : Nat) : Option (Nat × Nat) :=
  let p1 := cfbs_shrink 64 fbs 0
  let p2 :=
    if p1.1 <<< p1.2 < fbs then
      if p1.1 + 1 > 2047 then ((p1.1 + 1) / 2, p1.2 + 1) else (p1.1 + 1, p1.2)
    else p1
  match cfbs_align unit_fbs (2048 * 64) p2.1 p2.2 with
  | none => none
  | some (m, e) =>
    if m = 0 ∨ 2047 < m ∨ e < 9 ∨ 40 < e ∨ m <<< e < fbs ∨
        ¬isvalid_fbs (m <<< e) ∨ ¬isvalid_fbs fbs then none
    else some (m % 256, ((e - 9) <<< 3) ||| (m >>> 8))

/-- `Coded_fbs::val` (fec.h lines 90-95). -/
def Coded_fbs_val (d : Nat × Nat) : Nat :=
  (((d.2 &&& 7) <<< 8) ||| d.1) <<< ((d.2 >>> 3) + 9)

/-- `compute_unit_fbs` (fec_create.cc lines 222-227).  The loop doubles `bs`
from 512 and stops at 65536 at the latest, so 8 iterations suffice; the
fuel-0 case is unreachable from the entry point. -/
def compute_unit_fbs_go : Nat → Nat → Nat → Nat
  | 0, bs, _ => bs
  | fuel + 1, bs, prodata_size =>
    if bs < 65536 ∧ 4 * bs * bs < prodata_size then
      compute_unit_fbs_go fuel (bs * 2) prodata_size
    else bs

def compute_unit_fbs (prodata_size : Nat) : Nat :=
  compute_unit_fbs_go 8 min_fbs prodata_size

/-- `divide_fbs` (fec_create.cc lines 229-236). -/
def divide_fbs (size blocks unit_fbs : Nat) : Nat :=
  let fbs := ceil_divide size blocks
  let fbs := if fbs < min_fbs then min_fbs
             else if fbs > max_fbs then max_fbs else fbs
  ceil_divide fbs unit_fbs

/-- `compute_fbs` (fec_create.cc lines 239-252). -/
def compute_fbs (prodata_size cl_block_size fec_level : Nat) :
    Option (Nat × Nat) :=
  let unit_fbs := if isvalid_fbs cl_block_size then cl_block_size
                  else compute_unit_fbs prodata_size
  let max_k := if fec_level = 0 then max_k8 else max_k16
  let k9 := min (ceil_divide prodata_size unit_fbs) max_k
  let fbsu9 := divide_fbs prodata_size k9 unit_fbs
  let fbsu0 := divide_fbs prodata_size max_k8 unit_fbs
  let a := min ((10 - fec_level) * fbsu9) fbsu0
  let b := fbsu0 >>> fec_level
  let fbsu := max a b
  Coded_fbs_make (fbsu * unit_fbs) unit_fbs

def fc_percent : Nat := 0
def fc_blocks : Nat := 1
def fc_bytes : Nat := 2

/-- `compute_fec_blocks` (fec_create.cc lines 255-279).  The `fc_percent`
branch computes `ceil(prodata_size * pct / 100000)` exactly, where the C++
rounds through `double`; the claims below only use it at values where the
two agree. -/
def compute_fec_blocks (prodata_size fb_or_pct fctype fec_level : Nat)
    (coded_fbs : Nat × Nat) : Nat :=
  let fbs := Coded_fbs_val coded_fbs
  let prodata_blocks := ceil_divide prodata_size fbs
  let max_k := if fec_level = 0 then max_k8 else max_k16
  if ¬isvalid_fbs fbs ∨ prodata_blocks > max_k then 0
  else
    let max_nk := if fec_level = 0 then max_k8 else max_nk16
    let fec_blocks :=
      if fctype = fc_blocks then min max_nk fb_or_pct
      else if fctype = fc_percent then
        let pct := max 1 (min 100000 fb_or_pct)
        let fec_bytes := ceil_divide (prodata_size * pct) 100000
        min (ceil_divide fec_bytes fbs) max_nk
      else if fctype = fc_bytes then
        let fec_bytes := min fb_or_pct prodata_size
        min (ceil_divide fec_bytes fbs) max_nk
      else 0
    if fec_blocks > prodata_blocks then prodata_blocks else fec_blocks

/-! Size bookkeeping of `write_fec` (fec_create.cc lines 307-391).
`Chksum_packet::packet_size` is `ceil(P / fbs) * 4 + 36 + 4` (fec.h 151-153);
`Fec_packet::packet_size` is `12 + fbs + 4` (fec.h 207-208).  The number and
sizes of fec packets are identical in the serial, random and multi-threaded
paths, so the model computes the sizes of the written packets directly. -/

def chksum_packet_size (prodata_size fbs : Nat) : Nat :=
  ceil_divide prodata_size fbs * 4 + 36 + 4

def fec_packet_size (fbs : Nat) : Nat := 12 + fbs + 4

/-- Result of a successful `write_fec`: number of fec blocks, block size,
whether the second (CRC32-C) chksum packet was written, and the total number
of bytes written to the fec file. -/
structure WriteFecResult where
  fec_blocks : Nat
  fbs : Nat
  second_chksum : Bool
  total_size : Nat
deriving Repr, DecidableEq

/-- `write_fec` (fec_create.cc lines 307-391), reduced to the written sizes:
`none` when `compute_fec_blocks` returns 0 (error path).  `fecdata_size`
accumulates the first chksum packet and all fec packets; the second chksum
packet is written under the condition of line 370. -/
def write_fec (prodata_size fb_or_pct cl_block_size fctype fec_level : Nat) :
    Option WriteFecResult :=
  match compute_fbs prodata_size cl_block_size fec_level with
  | none => none
  | some coded_fbs =>
    let fec_blocks :=
      compute_fec_blocks prodata_size fb_or_pct fctype fec_level coded_fbs
    if fec_blocks = 0 then none
    else
      let fbs := Coded_fbs_val coded_fbs
      let cps := chksum_packet_size prodata_size fbs
      let fecdata_size := cps + fec_blocks * fec_packet_size fbs
      let second := (fecdata_size + cps) / 2 ≤ fec_blocks * fbs ∧ 1 < fec_blocks
      some { fec_blocks := fec_blocks, fbs := fbs,
             second_chksum := decide second,
             total_size := fecdata_size + if second then cps else 0 }

/-! ### Arithmetic facts about `ceil_divide` and the coded representation -/

theorem ceil_divide_mul_ge (P B : Nat) (hB : 0 < B) : P ≤ ceil_divide P B * B := by
  unfold ceil_divide
  have hdm : P / B * B + P % B = P := Nat.div_add_mod' P B
  rcases Nat.eq_zero_or_pos (P % B) with h | h
  · rw [h] at hdm ⊢
    simp only [gt_iff_lt, lt_irrefl, if_false, Nat.add_zero]
    omega
  · rw [if_pos h, Nat.add_mul, one_mul]
    have := Nat.mod_lt P hB
    omega

theorem ceil_divide_le_iff (P B k : Nat) (hB : 0 < B) :
    ceil_divide P B ≤ k ↔ P ≤ k * B := by
  constructor
  · intro h
    calc P ≤ ceil_divide P B * B := ceil_divide_mul_ge P B hB
      _ ≤ k * B := Nat.mul_le_mul_right B h
  · intro h
    unfold ceil_divide
    rcases Nat.eq_zero_or_pos (P % B) with hm | hm
    · rw [hm]
      simp only [gt_iff_lt, lt_irrefl, if_false]
      have : P / B < k + 1 := by
        rw [Nat.div_lt_iff_lt_mul hB, Nat.succ_mul]
        omega
      omega
    · rw [if_pos hm]
      have : P / B < k := by
        rw [Nat.div_lt_iff_lt_mul hB]
        rcases Nat.lt_or_eq_of_le h with hlt | heq
        · exact hlt
        · exfalso
          have : P % B = 0 := by rw [heq]; exact Nat.mul_mod_left k B
          omega
      omega

theorem ceil_divide_pos (P B : Nat) (hP : 1 ≤ P) : 1 ≤ ceil_divide P B := by
  unfold ceil_divide
  rcases Nat.eq_zero_or_pos (P % B) with h | h
  · rcases Nat.eq_zero_or_pos B with rfl | hB
    · rw [Nat.mod_zero] at h; omega
    · have hdvd : B ∣ P := Nat.dvd_of_mod_eq_zero h
      have : B ≤ P := Nat.le_of_dvd (by omega) hdvd
      have : 1 ≤ P / B := (Nat.one_le_div_iff hB).mpr this
      omega
  · rw [if_pos h]
    exact Nat.le_add_left 1 _

/-- Bit reconstruction of the low three bits, checked over the bounded domain
used by `Coded_fbs`. -/
theorem cfbs_bits_low : ∀ x < 32, ∀ y < 8,
    ((x <<< 3) ||| y) &&& 7 = y ∧ ((x <<< 3) ||| y) >>> 3 = x := by decide

theorem cfbs_bits_high : ∀ z < 8, ∀ w < 256, (z <<< 8) ||| w = z * 256 + w := by
  decide

theorem cfbs_pack_spec (fbs : Nat) (me : Option (Nat × Nat)) (d : Nat × Nat)
    (h : (match me with
          | none => none
          | some (m, e) =>
            if m = 0 ∨ 2047 < m ∨ e < 9 ∨ 40 < e ∨ m <<< e < fbs ∨
                ¬isvalid_fbs (m <<< e) ∨ ¬isvalid_fbs fbs then none
            else some (m % 256, ((e - 9) <<< 3) ||| (m >>> 8))) = some d) :
    ∃ m e, 1 ≤ m ∧ m ≤ 2047 ∧ 9 ≤ e ∧ e ≤ 40 ∧ fbs ≤ m <<< e ∧
      isvalid_fbs (m <<< e) = true ∧ isvalid_fbs fbs = true ∧
      Coded_fbs_val d = m <<< e := by
  rcases me with _ | ⟨m, e⟩
  · cases h
  · dsimp only at h
    by_cases hc : m = 0 ∨ 2047 < m ∨ e < 9 ∨ 40 < e ∨ m <<< e < fbs ∨
        ¬isvalid_fbs (m <<< e) ∨ ¬isvalid_fbs fbs
    · rw [if_pos hc] at h; cases h
    · rw [if_neg hc] at h
      push_neg at hc
      obtain ⟨hm0, hm, he9, he40, hge, hv1, hv2⟩ := hc
      refine ⟨m, e, by omega, by omega, by omega, by omega, by omega,
        by simpa using hv1, by simpa using hv2, ?_⟩
      obtain rfl : d = (m % 256, ((e - 9) <<< 3) ||| (m >>> 8)) :=
        (Option.some_inj.mp h).symm
      unfold Coded_fbs_val
      simp only
      have hsh : m >>> 8 = m / 256 := by
        simp [Nat.shiftRight_eq_div_pow]
      have hy : m >>> 8 < 8 := by rw [hsh]; omega
      have hx : e - 9 < 32 := by omega
      obtain ⟨hlo, hhi⟩ := cfbs_bits_low (e - 9) hx (m >>> 8) hy
      rw [hlo, hhi, cfbs_bits_high (m >>> 8) hy (m % 256) (Nat.mod_lt _ (by norm_num))]
      rw [hsh]
      have hdm : m / 256 * 256 + m % 256 = m := by
        have := Nat.div_add_mod m 256; omega
      rw [hdm]
      congr 1
      omega

/-- On success `Coded_fbs_make` returns bytes encoding a pair `(m, e)` that
passed all checks of the constructor, and `Coded_fbs_val` decodes them back to
`m <<< e`. -/
theorem Coded_fbs_make_spec (fbs unit_fbs : Nat) (d : Nat × Nat)
    (h : Coded_fbs_make fbs unit_fbs = some d) :
    ∃ m e, 1 ≤ m ∧ m ≤ 2047 ∧ 9 ≤ e ∧ e ≤ 40 ∧ fbs ≤ m <<< e ∧
      isvalid_fbs (m <<< e) = true ∧ isvalid_fbs fbs = true ∧
      Coded_fbs_val d = m <<< e := by
  unfold Coded_fbs_make at h
  exact cfbs_pack_spec fbs _ d h

theorem compute_unit_fbs_go_ge (fuel bs P : Nat) :
    bs ≤ compute_unit_fbs_go fuel bs P := by
  induction fuel generalizing bs with
  | zero => simp [compute_unit_fbs_go]
  | succ fuel ih =>
    unfold compute_unit_fbs_go
    split
    · calc bs ≤ bs * 2 := by omega
        _ ≤ _ := ih (bs * 2)
    · exact Nat.le_refl bs

theorem compute_unit_fbs_ge (P : Nat) : min_fbs ≤ compute_unit_fbs P :=
  compute_unit_fbs_go_ge 8 min_fbs P

/-- The clamped block size of `divide_fbs`, multiplied back by the unit,
dominates `min (ceil(size / blocks)) max_fbs`. -/
theorem divide_fbs_mul_ge (size blocks unit_fbs : Nat) (hu : 0 < unit_fbs) :
    min (ceil_divide size blocks) max_fbs ≤
      divide_fbs size blocks unit_fbs * unit_fbs := by
  unfold divide_fbs
  set f := ceil_divide size blocks with hf
  set g := if f < min_fbs then min_fbs else if f > max_fbs then max_fbs else f
    with hg
  have h1 : min f max_fbs ≤ g := by
    rw [hg]
    split_ifs with a b
    · have : max_fbs = 1 <<< 47 := rfl
      have : min_fbs = 512 := rfl
      omega
    · omega
    · omega
  calc min f max_fbs ≤ g := h1
    _ ≤ ceil_divide g unit_fbs * unit_fbs := ceil_divide_mul_ge g unit_fbs hu

/-- C7, amended: for every payload size `P ≥ 1`, user block size and fec level
`L ≤ 9`, if the block-size computation succeeds then the decoded block size `B`
is a multiple of 512 with `512 ≤ B ≤ 2^47`; and provided `P` does not exceed
`k_max * 2^47` (the largest payload the code accepts for this level), the
number of data blocks `ceil(P/B)` is at most `k_max`. -/
theorem C7_compute_fbs_amended (P cl L : Nat) (hP : 1 ≤ P) (hL : L ≤ 9)
    (cd : Nat × Nat) (h : compute_fbs P cl L = some cd) :
    (Coded_fbs_val cd % 512 = 0 ∧ min_fbs ≤ Coded_fbs_val cd ∧
      Coded_fbs_val cd ≤ max_fbs) ∧
    (P ≤ (if L = 0 then max_k8 else max_k16) * max_fbs →
      ceil_divide P (Coded_fbs_val cd) ≤ (if L = 0 then max_k8 else max_k16)) := by
  unfold compute_fbs at h
  set unit_fbs := if isvalid_fbs cl then cl else compute_unit_fbs P with hunit
  set max_k := if L = 0 then max_k8 else max_k16 with hmaxk
  set k9 := min (ceil_divide P unit_fbs) max_k with hk9
  set fbsu9 := divide_fbs P k9 unit_fbs with hf9
  set fbsu0 := divide_fbs P max_k8 unit_fbs with hf0
  set a := min ((10 - L) * fbsu9) fbsu0 with ha
  set b := fbsu0 >>> L with hb
  set fbsu := max a b with hfbsu
  obtain ⟨m, e, hm1, hm2, he1, he2, hge, hv1, hv2, hval⟩ :=
    Coded_fbs_make_spec _ _ _ h
  rw [hval]
  have hvB : isvalid_fbs (m <<< e) = true := hv1
  have hB512 : min_fbs ≤ m <<< e ∧ m <<< e ≤ max_fbs ∧ m <<< e % 512 = 0 := by
    unfold isvalid_fbs at hvB
    simp only [Bool.and_eq_true, decide_eq_true_eq, beq_iff_eq] at hvB
    exact ⟨hvB.1.1, hvB.1.2, hvB.2⟩
  have hBpos : 0 < m <<< e := by
    have : (512 : Nat) ≤ m <<< e := hB512.1
    omega
  refine ⟨⟨hB512.2.2, hB512.1, hB512.2.1⟩, ?_⟩
  intro hPbound
  -- the computed (unclamped) size times unit dominates P / max_k
  have hupos : 0 < unit_fbs := by
    rw [hunit]
    split
    · rename_i hcl
      unfold isvalid_fbs at hcl
      simp only [Bool.and_eq_true, decide_eq_true_eq, beq_iff_eq] at hcl
      have : min_fbs ≤ cl := hcl.1.1
      unfold min_fbs at this
      omega
    · have := compute_unit_fbs_ge P
      unfold min_fbs at this
      omega
  have hmf : max_fbs = 1 <<< 47 := rfl
  have hmain : P ≤ fbsu * unit_fbs * max_k := by
    have hk9pos : 1 ≤ k9 := by
      rw [hk9]
      have h1 := ceil_divide_pos P unit_fbs hP
      have h2 : 1 ≤ max_k := by
        rw [hmaxk]; split <;> decide
      omega
    have hk9le : k9 ≤ max_k := by rw [hk9]; omega
    have hmk8 : (max_k8 : Nat) ≤ max_k := by
      rw [hmaxk]; split <;> [exact le_refl _; norm_num [max_k8, max_k16]]
    -- component bound: fbsu0 * unit * max_k ≥ P
    have hcomp0 : P ≤ fbsu0 * unit_fbs * max_k := by
      have hd := divide_fbs_mul_ge P max_k8 unit_fbs hupos
      rcases Nat.le_total (ceil_divide P max_k8) max_fbs with hc | hc
      · rw [min_eq_left hc] at hd
        have h1 : P ≤ ceil_divide P max_k8 * max_k8 :=
          ceil_divide_mul_ge P max_k8 (by norm_num [max_k8])
        calc P ≤ ceil_divide P max_k8 * max_k8 := h1
          _ ≤ fbsu0 * unit_fbs * max_k :=
            Nat.mul_le_mul hd hmk8
      · rw [min_eq_right hc] at hd
        calc P ≤ max_k * max_fbs := by rw [Nat.mul_comm] at hPbound ⊢; exact hPbound
          _ ≤ fbsu0 * unit_fbs * max_k := by
            rw [Nat.mul_comm max_k max_fbs]
            exact Nat.mul_le_mul_right max_k hd
    rcases Nat.eq_zero_or_pos L with rfl | hLpos
    · -- level 0: fbsu ≥ b = fbsu0 >>> 0 = fbsu0
      have hbb : b = fbsu0 := by rw [hb, Nat.shiftRight_zero]
      have : fbsu0 ≤ fbsu := by rw [hfbsu, ← hbb]; exact Nat.le_max_right a b
      calc P ≤ fbsu0 * unit_fbs * max_k := hcomp0
        _ ≤ fbsu * unit_fbs * max_k := by
          exact Nat.mul_le_mul_right _ (Nat.mul_le_mul_right _ this)
    · -- level ≥ 1: fbsu ≥ a = min ((10-L) * fbsu9) fbsu0 ≥ min fbsu9 fbsu0
      have ha_le : a ≤ fbsu := by rw [hfbsu]; exact Nat.le_max_left a b
      have hcomp9 : P ≤ fbsu9 * unit_fbs * max_k := by
        have hd := divide_fbs_mul_ge P k9 unit_fbs hupos
        rcases Nat.le_total (ceil_divide P k9) max_fbs with hc | hc
        · rw [min_eq_left hc] at hd
          have h1 : P ≤ ceil_divide P k9 * k9 := ceil_divide_mul_ge P k9 hk9pos
          calc P ≤ ceil_divide P k9 * k9 := h1
            _ ≤ fbsu9 * unit_fbs * max_k := Nat.mul_le_mul hd hk9le
        · rw [min_eq_right hc] at hd
          calc P ≤ max_k * max_fbs := by rw [Nat.mul_comm] at hPbound ⊢; exact hPbound
            _ ≤ fbsu9 * unit_fbs * max_k := by
              rw [Nat.mul_comm max_k max_fbs]
              exact Nat.mul_le_mul_right max_k hd
      have h9a : fbsu9 ≤ (10 - L) * fbsu9 := by
        have : 1 ≤ 10 - L := by omega
        calc fbsu9 = 1 * fbsu9 := (Nat.one_mul _).symm
          _ ≤ (10 - L) * fbsu9 := Nat.mul_le_mul_right _ this
      have hmin : min fbsu9 fbsu0 ≤ a := by
        rw [ha]
        rcases Nat.le_total fbsu9 fbsu0 with hcc | hcc
        · calc min fbsu9 fbsu0 = fbsu9 := min_eq_left hcc
            _ ≤ min ((10 - L) * fbsu9) fbsu0 := le_min (h9a) hcc
        · calc min fbsu9 fbsu0 = fbsu0 := min_eq_right hcc
            _ ≤ min ((10 - L) * fbsu9) fbsu0 := by
              refine le_min ?_ (le_refl _)
              calc fbsu0 ≤ fbsu9 := hcc
                _ ≤ (10 - L) * fbsu9 := h9a
      rcases Nat.le_total fbsu9 fbsu0 with hcc | hcc
      · have : fbsu9 ≤ fbsu := by
          calc fbsu9 = min fbsu9 fbsu0 := (min_eq_left hcc).symm
            _ ≤ a := hmin
            _ ≤ fbsu := ha_le
        calc P ≤ fbsu9 * unit_fbs * max_k := hcomp9
          _ ≤ fbsu * unit_fbs * max_k :=
            Nat.mul_le_mul_right _ (Nat.mul_le_mul_right _ this)
      · have : fbsu0 ≤ fbsu := by
          calc fbsu0 = min fbsu9 fbsu0 := (min_eq_right hcc).symm
            _ ≤ a := hmin
            _ ≤ fbsu := ha_le
        calc P ≤ fbsu0 * unit_fbs * max_k := hcomp0
          _ ≤ fbsu * unit_fbs * max_k :=
            Nat.mul_le_mul_right _ (Nat.mul_le_mul_right _ this)
  rw [ceil_divide_le_iff P (m <<< e) max_k hBpos]
  calc P ≤ fbsu * unit_fbs * max_k := hmain
    _ ≤ m <<< e * max_k := Nat.mul_le_mul_right max_k hge
    _ = max_k * (m <<< e) := Nat.mul_comm _ _
    _ = _ := rfl

/-- C7 counterexample: at payload size `2^60` with fec level 0 (GF(2^8),
`k_max = 128`) the computation succeeds and yields the maximal block size
`2^47`, but the number of data blocks `ceil(2^60 / 2^47) = 8192` exceeds
`k_max` (and `compute_fec_blocks` then rejects the file as too large). -/
theorem C7_compute_fbs_cex :
    compute_fbs (2 ^ 60) 0 0 = some (0, 228) ∧
    Coded_fbs_val (0, 228) = 2 ^ 47 ∧
    128 < ceil_divide (2 ^ 60) (Coded_fbs_val (0, 228)) := by
  refine ⟨by decide, by decide, by decide⟩

/-- C7 witness: the amended theorem applied to a one-megabyte payload at
level 0; the computed block size is 8192. -/
theorem C7_compute_fbs_amended_witness :
    1 ≤ 1000000 ∧ (0 : Nat) ≤ 9 ∧ compute_fbs 1000000 0 0 = some (16, 0) ∧
    ((Coded_fbs_val (16, 0) % 512 = 0 ∧ min_fbs ≤ Coded_fbs_val (16, 0) ∧
        Coded_fbs_val (16, 0) ≤ max_fbs) ∧
      (1000000 ≤ (if (0 : Nat) = 0 then max_k8 else max_k16) * max_fbs →
        ceil_divide 1000000 (Coded_fbs_val (16, 0)) ≤
          (if (0 : Nat) = 0 then max_k8 else max_k16))) :=
  ⟨by decide, by decide, by decide,
    C7_compute_fbs_amended 1000000 0 0 (by decide) (by decide) (16, 0) (by decide)⟩

theorem compute_fbs_isvalid (P cl L : Nat) (cd : Nat × Nat)
    (h : compute_fbs P cl L = some cd) :
    isvalid_fbs (Coded_fbs_val cd) = true := by
  unfold compute_fbs at h
  obtain ⟨m, e, -, -, -, -, -, hv1, -, hval⟩ := Coded_fbs_make_spec _ _ _ h
  rw [hval]
  exact hv1

/-- C9: in every successful `write_fec` run, the second (CRC32-C) chksum
packet is written exactly when `(fec_bytes + chksum_size)/2 ≤
fec_blocks * block_size` and `fec_blocks > 1` (with `fec_bytes` the bytes
written so far: first chksum packet plus all fec packets), and the total
file size is a multiple of 4 bytes. -/
theorem C9_write_fec_second_chksum (P fb cl fctype L : Nat)
    (r : WriteFecResult) (h : write_fec P fb cl fctype L = some r) :
    (r.second_chksum = true ↔
      ((chksum_packet_size P r.fbs + r.fec_blocks * fec_packet_size r.fbs +
          chksum_packet_size P r.fbs) / 2 ≤ r.fec_blocks * r.fbs ∧
        1 < r.fec_blocks)) ∧
    r.total_size % 4 = 0 := by
  unfold write_fec at h
  rcases hc : compute_fbs P cl L with _ | cfbs
  · rw [hc] at h; cases h
  · rw [hc] at h
    dsimp only at h
    by_cases h0 : compute_fec_blocks P fb fctype L cfbs = 0
    · rw [if_pos h0] at h; cases h
    · rw [if_neg h0] at h
      obtain rfl := (Option.some_inj.mp h).symm
      dsimp only
      constructor
      · simp only [decide_eq_true_eq]
      · -- every written packet has size divisible by 4
        have hval : 4 ∣ Coded_fbs_val cfbs := by
          have hv1 := compute_fbs_isvalid P cl L cfbs hc
          unfold isvalid_fbs at hv1
          simp only [Bool.and_eq_true, decide_eq_true_eq, beq_iff_eq] at hv1
          have h512 : (512 : Nat) ∣ Coded_fbs_val cfbs :=
            Nat.dvd_of_mod_eq_zero hv1.2
          exact dvd_trans (by norm_num) h512
        have hcps : 4 ∣ chksum_packet_size P (Coded_fbs_val cfbs) := by
          unfold chksum_packet_size
          have : 4 ∣ ceil_divide P (Coded_fbs_val cfbs) * 4 := dvd_mul_left 4 _
          omega
        have hfps : 4 ∣ fec_packet_size (Coded_fbs_val cfbs) := by
          unfold fec_packet_size
          omega
        have hmany : 4 ∣ compute_fec_blocks P fb fctype L cfbs *
            fec_packet_size (Coded_fbs_val cfbs) := Dvd.dvd.mul_left hfps _
        have hite : 4 ∣ (if (chksum_packet_size P (Coded_fbs_val cfbs) +
              compute_fec_blocks P fb fctype L cfbs *
                fec_packet_size (Coded_fbs_val cfbs) +
              chksum_packet_size P (Coded_fbs_val cfbs)) / 2 ≤
              compute_fec_blocks P fb fctype L cfbs * Coded_fbs_val cfbs ∧
              1 < compute_fec_blocks P fb fctype L cfbs then
            chksum_packet_size P (Coded_fbs_val cfbs) else 0) := by
          split
          · exact hcps
          · exact dvd_zero 4
        omega

/-- C9 witness: a one-megabyte payload protected at 10% with one worker. -/
theorem C9_write_fec_second_chksum_witness :
    write_fec 1000000 10000 0 0 0 =
      some ⟨13, 8192, true, 107768⟩ ∧
    (((⟨13, 8192, true, 107768⟩ : WriteFecResult).second_chksum = true ↔
      ((chksum_packet_size 1000000 8192 + 13 * fec_packet_size 8192 +
          chksum_packet_size 1000000 8192) / 2 ≤ 13 * 8192 ∧ (1 : Nat) < 13)) ∧
      (107768 : Nat) % 4 = 0) :=
  ⟨by decide, C9_write_fec_second_chksum 1000000 10000 0 0 0 _ (by decide)⟩

/-! ## Lzip_index (lzip_index.h, lzip_index.cc)

The input file is a `List Nat` of bytes; `pos` cursors are `Nat` (the C++
`unsigned long long` / nonnegative `long long` values).  `std::vector`
`push_back` is modelled by `List.cons`, so the member list is held in
reverse push order — which is forward file order, making the final
`std::reverse` of the constructor the identity of the model.  Loops are
modelled with explicit fuel; every fuel argument passed by the entry points
strictly exceeds the number of iterations the C++ loop can make, so the
fuel-0 cases are unreachable. -/

def INT64_MAX : Nat := 2 ^ 63 - 1

def fbyte (f : List Nat) (i : Nat) : Nat := f.getD i 0

/-- The bytes `[t, t+len)` of the file (e.g. a trailer or header image). -/
def subbytes (f : List Nat) (t len : Nat) : List Nat :=
  (List.range len).map (fun j => fbyte f (t + j))

def lzip_magic : List Nat := [0x4C, 0x5A, 0x49, 0x50]

/-- `Lzip_header::check_magic` (lzip.h line 220). -/
def header_check_magic (f : List Nat) (p : Nat) : Bool :=
  decide (fbyte f p = 0x4C) && decide (fbyte f (p + 1) = 0x5A) &&
  decide (fbyte f (p + 2) = 0x49) && decide (fbyte f (p + 3) = 0x50)

/-- `Lzip_header::check_prefix` (lzip.h lines 222-227). -/
def check_prefix (f : List Nat) (p sz : Nat) : Bool :=
  decide (0 < sz) &&
  (List.range (min sz 4)).all (fun i => decide (fbyte f (p + i) = lzip_magic.getD i 0))

/-- `Lzip_header::check_corrupt` (lzip.h lines 229-235). -/
def check_corrupt (f : List Nat) (p : Nat) : Bool :=
  let nmatches :=
    (List.range 4).countP (fun i => decide (fbyte f (p + i) = lzip_magic.getD i 0))
  decide (1 < nmatches) && decide (nmatches < 4)

def header_check_version (f : List Nat) (p : Nat) : Bool :=
  decide (fbyte f (p + 4) = 1)

/-- `Lzip_header::dictionary_size` (lzip.h lines 240-246). -/
def dict_size_decode (d5 : Nat) : Nat :=
  let sz := 1 <<< (d5 &&& 0x1F)
  if sz > min_dictionary_size then sz - sz / 16 * ((d5 >>> 5) &&& 7) else sz

def header_dictionary_size (f : List Nat) (p : Nat) : Nat :=
  dict_size_decode (fbyte f (p + 5))

/-- `Lzip_header::check` (lzip.h lines 263-265); also the body of
`Lzip_index::check_header` (lzip_index.cc lines 42-52), which performs the
same three tests. -/
def header_check (f : List Nat) (p : Nat) (ignore_bad_ds : Bool) : Bool :=
  header_check_magic f p && header_check_version f p &&
  (ignore_bad_ds || isvalid_ds (header_dictionary_size f p))

/-- The command-line options read by the index construction. -/
structure ClOpts where
  ignore_trailing : Bool
  loose_trailing : Bool
  ignore_empty : Bool
  ignore_marking : Bool

inductive ReadHeaderResult
  | okHeader
  | errEnv      -- seek/read failure, retval 1
  | errMarking  -- nonzero first LZMA byte, retval 2
deriving Repr, DecidableEq

/-- `Lzip_index::read_header` (lzip_index.cc lines 69-78): reading the 6
header bytes fails past EOF; the marking check reads one byte more and is
skipped when that read fails (exactly at EOF). -/
def read_header_model (f : List Nat) (p : Nat) (ignore_marking : Bool) :
    ReadHeaderResult :=
  if f.length < p + 6 then .errEnv
  else if ¬ignore_marking ∧ p + 6 < f.length ∧ fbyte f (p + 6) ≠ 0 then
    .errMarking
  else .okHeader

structure IMember where
  dpos : Nat
  dsize : Nat
  mpos : Nat
  msize : Nat
  dictionary_size : Nat
deriving Repr, DecidableEq

def IMember.dend (m : IMember) : Nat := m.dpos + m.dsize
def IMember.mend (m : IMember) : Nat := m.mpos + m.msize

/-- `while( i > trailer.size && buffer[i-9] == 0 ) --i;`
(lzip_index.cc line 123); `buffer[j]` is file byte `ipos + j`. -/
def zskip (f : List Nat) (ipos : Nat) : Nat → Nat
  | 0 => 0
  | i + 1 =>
    if 20 < i + 1 ∧ fbyte f (ipos + (i + 1) - 9) = 0 then zskip f ipos i
    else i + 1

inductive ScanResult
  | found (pos : Nat) (members : List IMember) (dsmax : Nat)
  | windowDone
  | bad (retval : Nat)

/-- The accepted-candidate tail of the scan (lzip_index.cc lines 129-164):
given a consistent trailer ending at window offset `i` with a valid header at
the implied position, push a gap pseudo-member when the gap starts with a
header prefix, run the trailing-data and empty-member checks, and push the
found member. -/
def sg_accept (f : List Nat) (cl : ClOpts) (ignore_gaps : Bool)
    (pos ipos bsize i member_size : Nat) (trailer : List Nat)
    (members : List IMember) (dsmax : Nat) : ScanResult :=
  let full_h2 := 6 ≤ bsize - i
  if check_prefix f (ipos + i) (bsize - i) then
    if ¬ignore_gaps ∧ members = [] then .bad 2
    else
      let ds2 := if full_h2 then header_dictionary_size f (ipos + i) else 0
      let gap_size := pos - (ipos + i)
      let members1 := ⟨0, gap_size, ipos + i, gap_size, ds2⟩ :: members
      let data_size := Trailer.data_size trailer
      if ¬cl.ignore_empty ∧ data_size = 0 then .bad 2
      else
        let newpos := ipos + i - member_size
        let ds := header_dictionary_size f newpos
        .found newpos (⟨0, data_size, newpos, member_size, ds⟩ :: members1)
          (max dsmax ds)
  else
    if ¬ignore_gaps ∧ members = [] ∧
        ((¬cl.loose_trailing ∧ full_h2 ∧ check_corrupt f (ipos + i)) ∨
         ¬cl.ignore_trailing) then .bad 2
    else
      let data_size := Trailer.data_size trailer
      if ¬cl.ignore_empty ∧ data_size = 0 then .bad 2
      else
        let newpos := ipos + i - member_size
        let ds := header_dictionary_size f newpos
        .found newpos (⟨0, data_size, newpos, member_size, ds⟩ :: members)
          (max dsmax ds)

/-- The trailer-candidate scan of `skip_gap` (lzip_index.cc lines 116-165):
walk `i` from `search_size` down to `Lzip_trailer::size`, testing the 20
bytes ending at window offset `i`.  `pos` is the end of the gap (never
changed during the scan).  The fuel starts at `search_size + 1 > i`. -/
def sg_scan (f : List Nat) (cl : ClOpts) (ignore_bad_ds ignore_gaps : Bool)
    (pos ipos bsize max_msb : Nat) (members : List IMember) (dsmax : Nat) :
    Nat → Nat → ScanResult
  | 0, _ => .windowDone
  | fuel + 1, i =>
    if i < 20 then .windowDone
    else if fbyte f (ipos + i - 1) ≤ max_msb then
      let trailer := subbytes f (ipos + i - 20) 20
      let member_size := Trailer.member_size trailer
      if member_size = 0 then
        sg_scan f cl ignore_bad_ds ignore_gaps pos ipos bsize max_msb members
          dsmax fuel (zskip f ipos i - 1)
      else if ipos + i < member_size ∨ ¬check_consistency trailer then
        sg_scan f cl ignore_bad_ds ignore_gaps pos ipos bsize max_msb members
          dsmax fuel (i - 1)
      else
        match read_header_model f (ipos + i - member_size) cl.ignore_marking with
        | .errEnv => .bad 1
        | .errMarking => .bad 2
        | .okHeader =>
          if ¬header_check f (ipos + i - member_size) ignore_bad_ds then
            sg_scan f cl ignore_bad_ds ignore_gaps pos ipos bsize max_msb
              members dsmax fuel (i - 1)
          else
            sg_accept f cl ignore_gaps pos ipos bsize i member_size trailer
              members dsmax
    else
      sg_scan f cl ignore_bad_ds ignore_gaps pos ipos bsize max_msb members
        dsmax fuel (i - 1)

inductive SkipGapResult
  | good (pos : Nat) (members : List IMember) (dsmax : Nat)
  | bad (retval : Nat)

/-- The sliding-window loop of `skip_gap` (lzip_index.cc lines 111-184).
The window always holds file bytes `[ipos, ipos + bsize)`, so buffer reads
are file reads; the fuel exceeds `ipos / 16384 + 1`, the number of windows
left. -/
def sg_windows (f : List Nat) (cl : ClOpts) (ignore_bad_ds ignore_gaps : Bool)
    (pos : Nat) (members : List IMember) (dsmax : Nat) :
    Nat → Nat → Nat → Nat → Nat → SkipGapResult
  | 0, _, _, _, _ => .bad 99
  | wfuel + 1, ipos, bsize, search_size, rd_size =>
    if f.length < ipos + rd_size then .bad 1
    else
      let max_msb := (ipos + search_size) >>> 56
      match sg_scan f cl ignore_bad_ds ignore_gaps pos ipos bsize max_msb
          members dsmax (search_size + 1) search_size with
      | .found p ms dm => .good p ms dm
      | .bad r => .bad r
      | .windowDone =>
        if ipos = 0 then
          if ignore_gaps ∧ members ≠ [] then
            .good 0 (⟨0, pos, 0, pos, header_dictionary_size f 0⟩ :: members)
              dsmax
          else .bad 2
        else
          sg_windows f cl ignore_bad_ds ignore_gaps pos members dsmax wfuel
            (ipos - 16384) 16409 (16409 - 6) 16384

/-- `Lzip_index::skip_gap` (lzip_index.cc lines 93-185).  The `pos < 36`
entry branch returns false without setting an error (C++ line 97-100);
it is unreachable from the constructor loop and modelled as `.bad 0`. -/
def skip_gap (f : List Nat) (cl : ClOpts) (ignore_bad_ds ignore_gaps : Bool)
    (pos : Nat) (members : List IMember) (dsmax : Nat) : SkipGapResult :=
  if pos < min_member_size then
    if ignore_gaps ∧ members ≠ [] then .good 0 members dsmax else .bad 0
  else
    let bsize0 := pos % 16384
    let bsize := if bsize0 ≤ 16409 - 16384 then bsize0 + 16384 else bsize0
    sg_windows f cl ignore_bad_ds ignore_gaps pos members dsmax
      (pos / 16384 + 2) (pos - bsize) bsize bsize bsize

inductive LoopResult
  | done (pos : Nat) (members : List IMember) (dsmax : Nat)
  | fail (retval : Nat)

/-- The backward scan loop of the constructor (lzip_index.cc lines 207-240).
Every iteration either returns or strictly decreases `pos`, so fuel
`pos + 1` suffices. -/
def index_loop (f : List Nat) (cl : ClOpts)
    (ignore_bad_ds ignore_gaps : Bool) :
    Nat → Nat → List IMember → Nat → LoopResult
  | 0, _, _, _ => .fail 99
  | fuel + 1, pos, ms, dm =>
    if pos < min_member_size then .done pos ms dm
    else if f.length < pos then .fail 1   -- read_trailer fails
    else
      let trailer := subbytes f (pos - 20) 20
      let member_size := Trailer.member_size trailer
      if pos < member_size ∨ member_size < min_member_size ∨
          ((¬ignore_gaps ∨ ms = []) ∧ ¬check_consistency trailer) then
        if ignore_gaps ∨ ms = [] then
          match skip_gap f cl ignore_bad_ds ignore_gaps pos ms dm with
          | .good p ms' dm' => index_loop f cl ignore_bad_ds ignore_gaps fuel p ms' dm'
          | .bad r => .fail r
        else .fail 2
      else
        match read_header_model f (pos - member_size) cl.ignore_marking with
        | .errEnv => .fail 1
        | .errMarking => .fail 2
        | .okHeader =>
          if ¬header_check f (pos - member_size) ignore_bad_ds then
            if ignore_gaps ∨ ms = [] then
              match skip_gap f cl ignore_bad_ds ignore_gaps pos ms dm with
              | .good p ms' dm' =>
                index_loop f cl ignore_bad_ds ignore_gaps fuel p ms' dm'
              | .bad r => .fail r
            else .fail 2
          else
            let data_size := Trailer.data_size trailer
            if ¬cl.ignore_empty ∧ data_size = 0 then .fail 2
            else
              let p := pos - member_size
              let ds := header_dictionary_size f p
              index_loop f cl ignore_bad_ds ignore_gaps fuel p
                (⟨0, data_size, p, member_size, ds⟩ :: ms) (max dm ds)

inductive IdxResult
  | ok (members : List IMember) (dsmax : Nat)
  | err (retval : Nat)
  | internalError
deriving Repr, DecidableEq

/-- The final loop of the constructor (lzip_index.cc lines 250-263): check
each data-block end against `INT64_MAX`, chain `dblock[i+1].pos :=
dblock[i].end`, and declare an internal error if two adjacent member blocks
overlap. -/
def fin_loop (dm : Nat) : Nat → List IMember → List IMember → IdxResult
  | 0, _, _ => .err 98
  | _ + 1, acc, [] => .ok acc.reverse dm
  | fuel + 1, acc, m :: rest =>
    if INT64_MAX < m.dend then .err 2
    else
      match rest with
      | [] => .ok (acc.reverse ++ [m]) dm
      | m2 :: rest2 =>
        if m2.mpos < m.mend then .internalError
        else fin_loop dm fuel (m :: acc) ({ m2 with dpos := m.dend } :: rest2)

/-- `Lzip_index::Lzip_index` (lzip_index.cc lines 188-264). -/
def Lzip_index_build (f : List Nat) (cl : ClOpts)
    (ignore_bad_ds ignore_gaps : Bool) (max_pos : Nat) : IdxResult :=
  if f.length < min_member_size then .err 2
  else if INT64_MAX < f.length then .err 2
  else if read_header_model f 0 cl.ignore_marking = .errEnv then .err 1
  else if read_header_model f 0 cl.ignore_marking = .errMarking then .err 2
  else if ¬header_check f 0 ignore_bad_ds then .err 2
  else
    match index_loop f cl ignore_bad_ds ignore_gaps
        ((if 0 < max_pos then max_pos else f.length) + 1)
        (if 0 < max_pos then max_pos else f.length) [] 0 with
    | .fail r => .err r
    | .done pos ms dm =>
      if min_member_size ≤ pos ∨ (pos ≠ 0 ∧ ¬ignore_gaps) ∨ ms = [] then
        .err 2
      else fin_loop dm (ms.length + 1) [] ms

/-! ### Invariants of the index construction -/

/-- Member blocks in forward order: each ends at or before the next starts. -/
def MChain (ms : List IMember) : Prop :=
  ms.Chain' (fun a b => a.mend ≤ b.mpos)

/-- The scan cursor is at or before the start of the newest member. -/
def CursorOk (pos : Nat) (ms : List IMember) : Prop :=
  match ms with
  | [] => True
  | m :: _ => pos ≤ m.mpos

/-- All data blocks still start at 0 (as pushed; the final loop chains them). -/
def DZero (ms : List IMember) : Prop := ∀ m ∈ ms, m.dpos = 0

/-- `dictionary_size_` equals the maximum dictionary size of the members. -/
def DsInv (dm : Nat) (ms : List IMember) : Prop :=
  dm = (ms.map (·.dictionary_size)).foldr max 0

theorem check_consistency_msize (d : List Nat) (h : check_consistency d = true) :
    min_member_size ≤ Trailer.member_size d := by
  simp only [check_consistency] at h
  split_ifs at h with h1 h2 h3 h4
  omega

theorem zskip_le (f : List Nat) (ipos : Nat) : ∀ i, zskip f ipos i ≤ i := by
  intro i
  induction i with
  | zero => simp [zskip]
  | succ i ih =>
    unfold zskip
    split
    · omega
    · exact Nat.le_refl _

/-- Pushing a member whose block ends at or before the cursor preserves the
ordering invariants, with the new cursor at or before its start. -/
theorem push_inv (pos newpos : Nat) (ms : List IMember) (m : IMember)
    (hm : m.mend ≤ pos) (hnp : newpos ≤ m.mpos) (hdp : m.dpos = 0)
    (hch : MChain ms) (hcur : CursorOk pos ms) (hdz : DZero ms) :
    MChain (m :: ms) ∧ CursorOk newpos (m :: ms) ∧ DZero (m :: ms) := by
  refine ⟨?_, ?_, ?_⟩
  · unfold MChain at hch ⊢
    rw [List.chain'_cons']
    refine ⟨?_, hch⟩
    intro y hy
    cases ms with
    | nil => cases hy
    | cons m0 mrest =>
      simp only [List.head?_cons, Option.mem_def, Option.some_inj] at hy
      subst hy
      unfold CursorOk at hcur
      omega
  · exact hnp
  · intro x hx
    rcases List.mem_cons.mp hx with rfl | hx
    · exact hdp
    · exact hdz x hx

/-- Invariant preservation of the accepted-candidate tail. -/
theorem sg_accept_spec (f : List Nat) (cl : ClOpts) (ig : Bool)
    (pos ipos bsize i member_size : Nat) (trailer : List Nat)
    (ms : List IMember) (dm : Nat)
    (hpos : ipos + i ≤ pos) (hmle : member_size ≤ ipos + i)
    (hm36 : 36 ≤ member_size)
    (hch : MChain ms) (hcur : CursorOk pos ms) (hdz : DZero ms)
    (hds : ig = false → DsInv dm ms) (hig0 : ig = false → ms = []) :
    ∀ p' ms' dm',
      sg_accept f cl ig pos ipos bsize i member_size trailer ms dm =
        .found p' ms' dm' →
      p' < pos ∧ MChain ms' ∧ CursorOk p' ms' ∧ DZero ms' ∧
        (ig = false → DsInv dm' ms') ∧ ms' ≠ [] := by
  intro p' ms' dm' h
  unfold sg_accept at h
  have hnp_lt : ipos + i - member_size < pos := by omega
  by_cases hpre : check_prefix f (ipos + i) (bsize - i) = true
  · rw [if_pos hpre] at h
    by_cases hte : ¬ig ∧ ms = []
    · rw [if_pos hte] at h; cases h
    · rw [if_neg hte] at h
      by_cases hemp : ¬cl.ignore_empty ∧ Trailer.data_size trailer = 0
      · rw [if_pos hemp] at h; cases h
      · rw [if_neg hemp] at h
        cases h
        obtain ⟨hic1, hcc1, hdz1⟩ :=
          push_inv pos (ipos + i) ms
            ⟨0, pos - (ipos + i), ipos + i, pos - (ipos + i),
              if 6 ≤ bsize - i then header_dictionary_size f (ipos + i) else 0⟩
            (by unfold IMember.mend; simp only; omega)
            (by simp only; omega) rfl hch hcur hdz
        obtain ⟨hic2, hcc2, hdz2⟩ :=
          push_inv (ipos + i) (ipos + i - member_size) _
            ⟨0, Trailer.data_size trailer, ipos + i - member_size, member_size,
              header_dictionary_size f (ipos + i - member_size)⟩
            (by unfold IMember.mend; simp only; omega)
            (le_refl _) rfl hic1 hcc1 hdz1
        refine ⟨hnp_lt, hic2, hcc2, hdz2, ?_, by simp⟩
        intro hig
        exact absurd ⟨by simp [hig], hig0 hig⟩ hte
  · rw [if_neg hpre] at h
    by_cases htr2 : ¬ig ∧ ms = [] ∧
        ((¬cl.loose_trailing ∧ 6 ≤ bsize - i ∧
          check_corrupt f (ipos + i) = true) ∨ ¬cl.ignore_trailing)
    · rw [if_pos htr2] at h; cases h
    · rw [if_neg htr2] at h
      by_cases hemp : ¬cl.ignore_empty ∧ Trailer.data_size trailer = 0
      · rw [if_pos hemp] at h; cases h
      · rw [if_neg hemp] at h
        cases h
        obtain ⟨hic2, hcc2, hdz2⟩ :=
          push_inv pos (ipos + i - member_size) ms
            ⟨0, Trailer.data_size trailer, ipos + i - member_size, member_size,
              header_dictionary_size f (ipos + i - member_size)⟩
            (by unfold IMember.mend; simp only; omega)
            (by simp only; omega) rfl hch hcur hdz
        refine ⟨hnp_lt, hic2, hcc2, hdz2, ?_, by simp⟩
        intro hig
        unfold DsInv at hds ⊢
        rw [hds hig, hig0 hig]
        simp [Nat.max_comm]

/-- Outcome of a successful trailer-candidate scan: the cursor strictly
decreases and all invariants are preserved (the dictionary-size maximum only
when gaps are not ignored: with `ignore_gaps` false the scan is only reached
with an empty member list, and then no gap pseudo-member can be pushed). -/
theorem sg_scan_spec (f : List Nat) (cl : ClOpts) (ibd ig : Bool)
    (pos ipos bsize max_msb : Nat) :
    ∀ fuel i ms dm, ipos + i ≤ pos → MChain ms → CursorOk pos ms →
      DZero ms → (ig = false → DsInv dm ms) → (ig = false → ms = []) →
      ∀ p' ms' dm',
        sg_scan f cl ibd ig pos ipos bsize max_msb ms dm fuel i =
          .found p' ms' dm' →
        p' < pos ∧ MChain ms' ∧ CursorOk p' ms' ∧ DZero ms' ∧
          (ig = false → DsInv dm' ms') ∧ ms' ≠ [] := by
  intro fuel
  induction fuel with
  | zero => intro i ms dm _ _ _ _ _ _ p' ms' dm' h; cases h
  | succ fuel ih =>
    intro i ms dm hpos hch hcur hdz hds hig0 p' ms' dm' h
    unfold sg_scan at h
    by_cases h20 : i < 20
    · rw [if_pos h20] at h; cases h
    · rw [if_neg h20] at h
      push_neg at h20
      by_cases hmsb : fbyte f (ipos + i - 1) ≤ max_msb
      · rw [if_pos hmsb] at h
        simp only at h
        by_cases hz : Trailer.member_size (subbytes f (ipos + i - 20) 20) = 0
        · rw [if_pos hz] at h
          exact ih _ ms dm (by have := zskip_le f ipos i; omega) hch hcur hdz
            hds hig0 p' ms' dm' h
        · rw [if_neg hz] at h
          by_cases hbad : ipos + i < Trailer.member_size
                (subbytes f (ipos + i - 20) 20) ∨
              ¬check_consistency (subbytes f (ipos + i - 20) 20)
          · rw [if_pos hbad] at h
            exact ih _ ms dm (by omega) hch hcur hdz hds hig0 p' ms' dm' h
          · rw [if_neg hbad] at h
            push_neg at hbad
            obtain ⟨hmle, hcons⟩ := hbad
            have hm36 : 36 ≤ Trailer.member_size (subbytes f (ipos + i - 20) 20) := by
              have := check_consistency_msize _ (by simpa using hcons)
              unfold min_member_size at this
              exact this
            rcases hrh : read_header_model f
                (ipos + i - Trailer.member_size (subbytes f (ipos + i - 20) 20))
                cl.ignore_marking with _ | _ | _ <;> rw [hrh] at h
            · simp only at h
              by_cases hhc : ¬header_check f
                  (ipos + i - Trailer.member_size (subbytes f (ipos + i - 20) 20))
                  ibd
              · rw [if_pos hhc] at h
                exact ih _ ms dm (by omega) hch hcur hdz hds hig0 p' ms' dm' h
              · rw [if_neg hhc] at h
                exact sg_accept_spec f cl ig pos ipos bsize i _ _ ms dm
                  (by omega) hmle hm36 hch hcur hdz hds hig0 p' ms' dm' h
            · cases h
            · cases h
      · rw [if_neg hmsb] at h
        exact ih _ ms dm (by omega) hch hcur hdz hds hig0 p' ms' dm' h

/-- Invariant preservation of the sliding-window loop.  `ipos` is always a
multiple of the 16384-byte block size, so the `ipos -= rd_size` step never
wraps. -/
theorem sg_windows_spec (f : List Nat) (cl : ClOpts) (ibd ig : Bool)
    (pos : Nat) :
    ∀ wfuel ipos bsize search_size rd_size ms dm,
      ipos % 16384 = 0 → ipos + search_size ≤ pos → ipos + 19 ≤ pos →
      MChain ms → CursorOk pos ms → DZero ms →
      (ig = false → DsInv dm ms) → (ig = false → ms = []) →
      ∀ p' ms' dm',
        sg_windows f cl ibd ig pos ms dm wfuel ipos bsize search_size rd_size =
          .good p' ms' dm' →
        p' < pos ∧ MChain ms' ∧ CursorOk p' ms' ∧ DZero ms' ∧
          (ig = false → DsInv dm' ms') ∧ ms' ≠ [] := by
  intro wfuel
  induction wfuel with
  | zero => intro _ _ _ _ _ _ _ _ _ _ _ _ _ _ p' ms' dm' h; cases h
  | succ wfuel ih =>
    intro ipos bsize search_size rd_size ms dm hmod hss h19 hch hcur hdz hds
      hig0 p' ms' dm' h
    unfold sg_windows at h
    by_cases hrd : f.length < ipos + rd_size
    · rw [if_pos hrd] at h; cases h
    · rw [if_neg hrd] at h
      simp only at h
      rcases hsc : sg_scan f cl ibd ig pos ipos bsize
          ((ipos + search_size) >>> 56) ms dm (search_size + 1) search_size
        with ⟨p1, ms1, dm1⟩ | _ | r <;> rw [hsc] at h
      · cases h
        exact sg_scan_spec f cl ibd ig pos ipos bsize _ _ _ ms dm hss hch hcur
          hdz hds hig0 _ _ _ hsc
      · -- windowDone
        simp only at h
        by_cases hip : ipos = 0
        · rw [if_pos hip] at h
          by_cases hig : ig ∧ ms ≠ []
          · rw [if_pos hig] at h
            cases h
            obtain ⟨hic, hcc, hdzz⟩ :=
              push_inv pos 0 ms ⟨0, pos, 0, pos, header_dictionary_size f 0⟩
                (by unfold IMember.mend; simp only; omega)
                (by omega) rfl hch hcur hdz
            refine ⟨by omega, hic, hcc, hdzz, ?_, by simp⟩
            intro hgf
            rw [hgf] at hig
            exact absurd hig (by simp)
          · rw [if_neg hig] at h; cases h
        · rw [if_neg hip] at h
          have hge : 16384 ≤ ipos := by omega
          exact ih (ipos - 16384) 16409 (16409 - 6) 16384 ms dm
            (by omega) (by omega) (by omega) hch hcur hdz hds hig0 p' ms' dm' h
      · cases h

/-- Invariant preservation of `skip_gap` when called from the constructor
loop (`pos ≥ min_member_size`). -/
theorem skip_gap_spec (f : List Nat) (cl : ClOpts) (ibd ig : Bool)
    (pos : Nat) (ms : List IMember) (dm : Nat)
    (hpos : min_member_size ≤ pos)
    (hch : MChain ms) (hcur : CursorOk pos ms) (hdz : DZero ms)
    (hds : ig = false → DsInv dm ms) (hig0 : ig = false → ms = []) :
    ∀ p' ms' dm',
      skip_gap f cl ibd ig pos ms dm = .good p' ms' dm' →
      p' < pos ∧ MChain ms' ∧ CursorOk p' ms' ∧ DZero ms' ∧
        (ig = false → DsInv dm' ms') ∧ ms' ≠ [] := by
  intro p' ms' dm' h
  unfold skip_gap at h
  have hpos36 : 36 ≤ pos := by unfold min_member_size at hpos; exact hpos
  rw [if_neg (by omega)] at h
  simp only at h
  refine sg_windows_spec f cl ibd ig pos _ _ _ _ _ ms dm ?_ ?_ ?_ hch hcur hdz
    hds hig0 p' ms' dm' h
  · split <;> omega
  · split <;> omega
  · split <;> omega

/-- Invariant preservation of the constructor scan loop. -/
theorem index_loop_spec (f : List Nat) (cl : ClOpts) (ibd ig : Bool) :
    ∀ fuel pos ms dm, MChain ms → CursorOk pos ms → DZero ms →
      (ig = false → DsInv dm ms) →
      ∀ p' ms' dm',
        index_loop f cl ibd ig fuel pos ms dm = .done p' ms' dm' →
        MChain ms' ∧ CursorOk p' ms' ∧ DZero ms' ∧
          (ig = false → DsInv dm' ms') := by
  intro fuel
  induction fuel with
  | zero => intro pos ms dm _ _ _ _ p' ms' dm' h; cases h
  | succ fuel ih =>
    intro pos ms dm hch hcur hdz hds p' ms' dm' h
    unfold index_loop at h
    by_cases hpos : pos < min_member_size
    · rw [if_pos hpos] at h
      cases h
      exact ⟨hch, hcur, hdz, hds⟩
    · rw [if_neg hpos] at h
      push_neg at hpos
      by_cases hlen : f.length < pos
      · rw [if_pos hlen] at h; cases h
      · rw [if_neg hlen] at h
        simp only at h
        by_cases hbad : pos < Trailer.member_size (subbytes f (pos - 20) 20) ∨
            Trailer.member_size (subbytes f (pos - 20) 20) < min_member_size ∨
            ((¬ig ∨ ms = []) ∧ ¬check_consistency (subbytes f (pos - 20) 20))
        · rw [if_pos hbad] at h
          by_cases hgo : ig ∨ ms = []
          · rw [if_pos hgo] at h
            have hig0 : ig = false → ms = [] := by
              intro hgf
              rcases hgo with hgo | hgo
              · rw [hgf] at hgo; cases hgo
              · exact hgo
            rcases hsg : skip_gap f cl ibd ig pos ms dm with ⟨p1, ms1, dm1⟩ | r <;>
              rw [hsg] at h
            · obtain ⟨hlt, hch1, hcur1, hdz1, hds1, hne1⟩ :=
                skip_gap_spec f cl ibd ig pos ms dm hpos hch hcur hdz hds hig0
                  _ _ _ hsg
              exact ih p1 ms1 dm1 hch1 hcur1 hdz1 hds1 p' ms' dm' h
            · cases h
          · rw [if_neg hgo] at h; cases h
        · rw [if_neg hbad] at h
          rcases hrh : read_header_model f
              (pos - Trailer.member_size (subbytes f (pos - 20) 20))
              cl.ignore_marking with _ | _ | _ <;> rw [hrh] at h
          · simp only at h
            push_neg at hbad
            obtain ⟨hmle, hm36, -⟩ := hbad
            by_cases hhc : ¬header_check f
                (pos - Trailer.member_size (subbytes f (pos - 20) 20)) ibd
            · rw [if_pos hhc] at h
              by_cases hgo : ig ∨ ms = []
              · rw [if_pos hgo] at h
                have hig0 : ig = false → ms = [] := by
                  intro hgf
                  rcases hgo with hgo | hgo
                  · rw [hgf] at hgo; cases hgo
                  · exact hgo
                rcases hsg : skip_gap f cl ibd ig pos ms dm with ⟨p1, ms1, dm1⟩ | r <;>
                  rw [hsg] at h
                · obtain ⟨hlt, hch1, hcur1, hdz1, hds1, hne1⟩ :=
                    skip_gap_spec f cl ibd ig pos ms dm hpos hch hcur hdz hds
                      hig0 _ _ _ hsg
                  exact ih p1 ms1 dm1 hch1 hcur1 hdz1 hds1 p' ms' dm' h
                · cases h
              · rw [if_neg hgo] at h; cases h
            · rw [if_neg hhc] at h
              by_cases hemp : ¬cl.ignore_empty ∧
                  Trailer.data_size (subbytes f (pos - 20) 20) = 0
              · rw [if_pos hemp] at h; cases h
              · rw [if_neg hemp] at h
                obtain ⟨hic, hcc, hdzz⟩ :=
                  push_inv pos (pos - Trailer.member_size (subbytes f (pos - 20) 20))
                    ms
                    ⟨0, Trailer.data_size (subbytes f (pos - 20) 20),
                      pos - Trailer.member_size (subbytes f (pos - 20) 20),
                      Trailer.member_size (subbytes f (pos - 20) 20),
                      header_dictionary_size f
                        (pos - Trailer.member_size (subbytes f (pos - 20) 20))⟩
                    (by unfold IMember.mend; simp only; omega)
                    (le_refl _) rfl hch hcur hdz
                refine ih _ _ _ hic hcc hdzz ?_ p' ms' dm' h
                intro hgf
                unfold DsInv at hds ⊢
                rw [hds hgf]
                simp [Nat.max_comm]
          · cases h
          · cases h

/-- All fields except the rewritten `dblock.pos`. -/
def IMember.mkey (m : IMember) : Nat × Nat × Nat × Nat :=
  (m.dsize, m.mpos, m.msize, m.dictionary_size)

/-- The final loop only conses processed members onto the accumulator, so a
run from an arbitrary accumulator is the run from the empty one with the
accumulator prepended to a successful output. -/
theorem fin_loop_acc (dm : Nat) : ∀ fuel acc l,
    fin_loop dm fuel acc l =
      match fin_loop dm fuel [] l with
      | .ok out dm' => .ok (acc.reverse ++ out) dm'
      | r => r := by
  intro fuel
  induction fuel with
  | zero => intro acc l; simp [fin_loop]
  | succ fuel ih =>
    intro acc l
    match l with
    | [] => simp [fin_loop]
    | m :: rest =>
      simp only [fin_loop]
      by_cases hbig : INT64_MAX < m.dend
      · rw [if_pos hbig, if_pos hbig]
      · rw [if_neg hbig, if_neg hbig]
        match rest with
        | [] => simp
        | m2 :: rest2 =>
          simp only
          by_cases hov : m2.mpos < m.mend
          · rw [if_pos hov, if_pos hov]
          · rw [if_neg hov, if_neg hov]
            rw [ih (m :: acc), ih [m]]
            rcases fin_loop dm fuel [] ({ m2 with dpos := m.dend } :: rest2)
              with ⟨out, dm'⟩ | ⟨r⟩ | _ <;> simp

/-- The final loop, run from the empty accumulator on a chained member list:
it never raises the internal overlap error, and on success it only rewrites
the data-block positions, chaining them in file order. -/
theorem fin_loop_nil_spec : ∀ fuel (l : List IMember) (dm : Nat),
    l.length < fuel → MChain l →
    (fin_loop dm fuel [] l ≠ .internalError) ∧
    ∀ out dm', fin_loop dm fuel [] l = .ok out dm' →
      dm' = dm ∧ MChain out ∧
      List.Chain' (fun a b => b.dpos = a.dend) out ∧
      out.map IMember.mkey = l.map IMember.mkey ∧
      out.head?.map (·.dpos) = (l.head?).map (·.dpos) := by
  intro fuel
  induction fuel with
  | zero => intro l dm hlen _; omega
  | succ fuel ih =>
    intro l dm hlen hch
    match l with
    | [] =>
      refine ⟨by simp [fin_loop], ?_⟩
      intro out dm' h
      simp only [fin_loop, List.reverse_nil] at h
      cases h
      exact ⟨rfl, List.chain'_nil, List.chain'_nil, rfl, rfl⟩
    | m :: rest =>
      simp only [fin_loop]
      by_cases hbig : INT64_MAX < m.dend
      · rw [if_pos hbig]
        exact ⟨by simp, by intro out dm' h; cases h⟩
      · rw [if_neg hbig]
        match rest with
        | [] =>
          refine ⟨by simp, ?_⟩
          intro out dm' h
          cases h
          exact ⟨rfl, hch, by simp [List.chain'_singleton], rfl, rfl⟩
        | m2 :: rest2 =>
          simp only
          have hrel : m.mend ≤ m2.mpos := (List.chain'_cons.mp hch).1
          rw [if_neg (by omega : ¬ m2.mpos < m.mend)]
          rw [fin_loop_acc dm fuel [m]]
          have hch2 : MChain ({ m2 with dpos := m.dend } :: rest2) := by
            have h2 : MChain (m2 :: rest2) := (List.chain'_cons.mp hch).2
            unfold MChain at h2 ⊢
            rw [List.chain'_cons'] at h2 ⊢
            exact ⟨fun y hy => h2.1 y hy, h2.2⟩
          obtain ⟨hni, hok⟩ := ih ({ m2 with dpos := m.dend } :: rest2) dm
            (by simpa using Nat.lt_of_succ_lt_succ hlen) hch2
          constructor
          · rcases hfl : fin_loop dm fuel [] ({ m2 with dpos := m.dend } :: rest2)
              with ⟨out1, dm1⟩ | ⟨r⟩ | _
            · simp [hfl]
            · simp [hfl]
            · exact absurd hfl hni
          · intro out dm' h
            rcases hfl : fin_loop dm fuel [] ({ m2 with dpos := m.dend } :: rest2)
              with ⟨out1, dm1⟩ | ⟨r⟩ | _ <;> rw [hfl] at h
            · simp only [List.reverse_cons, List.reverse_nil,
                List.nil_append, List.singleton_append] at h
              cases h
              obtain ⟨rfl, hmc1, hdc1, hmap1, hhd1⟩ := hok out1 _ hfl
              have hhd_mkey : out1.head?.map IMember.mkey =
                  some ({ m2 with dpos := m.dend } : IMember).mkey := by
                rw [← List.head?_map, hmap1]
                simp
              refine ⟨rfl, ?_, ?_, ?_, ?_⟩
              · unfold MChain at hmc1 ⊢
                rw [List.chain'_cons']
                refine ⟨?_, hmc1⟩
                intro y hy
                have : (out1.head?.map IMember.mkey) = some y.mkey := by
                  rw [← List.head?_map]
                  cases out1 with
                  | nil => cases hy
                  | cons o t =>
                    simp only [List.head?_cons, Option.mem_def,
                      Option.some_inj] at hy
                    subst hy
                    simp
                rw [hhd_mkey] at this
                have hk := Option.some_inj.mp this
                unfold IMember.mkey at hk
                unfold IMember.mend at hrel ⊢
                simp only [Prod.mk.injEq] at hk
                omega
              · rw [List.chain'_cons']
                refine ⟨?_, hdc1⟩
                intro y hy
                have h1 := hhd1
                cases out1 with
                | nil => cases hy
                | cons o t =>
                  simp only [List.head?_cons, Option.mem_def,
                    Option.some_inj] at hy
                  subst hy
                  simp only [List.head?_cons, Option.map_some] at h1
                  have := Option.some_inj.mp h1
                  simp only at this
                  rw [this]
              · simp only [List.map_cons, hmap1, List.map_cons]
                rfl
              · simp
            · cases h
            · cases h

/-- A chain of member blocks in forward order is pairwise non-overlapping:
the relation `a.mend ≤ b.mpos` is transitive because `mpos ≤ mend`. -/
theorem mchain_pairwise {l : List IMember} (h : MChain l) :
    List.Pairwise (fun a b => a.mend ≤ b.mpos) l := by
  unfold MChain at h
  exact (@List.chain'_iff_pairwise IMember (fun a b => a.mend ≤ b.mpos)
    ⟨fun _ b _ hab hbc =>
      le_trans hab (le_trans (Nat.le_add_right b.mpos b.msize) hbc)⟩
    l).mp h

/-- Full postcondition of the index constructor, for an arbitrary result:
the internal overlap error never fires, and a successful index is pairwise
non-overlapping, has its data blocks chained in file order starting at 0,
and (when gaps are not ignored) records the maximum member dictionary size. -/
theorem Lzip_index_build_spec (f : List Nat) (cl : ClOpts) (ibd ig : Bool)
    (mp : Nat) (r : IdxResult) (h : Lzip_index_build f cl ibd ig mp = r) :
    r ≠ .internalError ∧
    ∀ out dm, r = .ok out dm →
      List.Pairwise (fun a b => a.mend ≤ b.mpos) out ∧
      List.Chain' (fun a b => b.dpos = a.dend) out ∧
      (∀ m0 ∈ out.head?, m0.dpos = 0) ∧
      (ig = false → dm = (out.map (·.dictionary_size)).foldr max 0) := by
  unfold Lzip_index_build at h
  by_cases h1 : f.length < min_member_size
  · rw [if_pos h1] at h
    cases h
    exact ⟨by simp, by intro out dm hh; cases hh⟩
  · rw [if_neg h1] at h
    by_cases h2 : INT64_MAX < f.length
    · rw [if_pos h2] at h
      cases h
      exact ⟨by simp, by intro out dm hh; cases hh⟩
    · rw [if_neg h2] at h
      by_cases hE : read_header_model f 0 cl.ignore_marking = .errEnv
      · rw [if_pos hE] at h
        cases h
        exact ⟨by simp, by intro out dm hh; cases hh⟩
      · rw [if_neg hE] at h
        by_cases hM : read_header_model f 0 cl.ignore_marking = .errMarking
        · rw [if_pos hM] at h
          cases h
          exact ⟨by simp, by intro out dm hh; cases hh⟩
        · rw [if_neg hM] at h
          by_cases h3 : ¬header_check f 0 ibd
          · rw [if_pos h3] at h
            cases h
            exact ⟨by simp, by intro out dm hh; cases hh⟩
          · rw [if_neg h3] at h
            rcases hil : index_loop f cl ibd ig
                ((if 0 < mp then mp else f.length) + 1)
                (if 0 < mp then mp else f.length) [] 0
              with ⟨pos, ms, dm0⟩ | ⟨rr⟩ <;> rw [hil] at h
            · obtain ⟨hch, hcur, hdz, hds⟩ := index_loop_spec f cl ibd ig
                ((if 0 < mp then mp else f.length) + 1)
                (if 0 < mp then mp else f.length) [] 0
                List.chain'_nil True.intro
                (fun m hm => absurd hm (List.not_mem_nil m))
                (fun _ => rfl) pos ms dm0 hil
              have h4 : (if min_member_size ≤ pos ∨ (pos ≠ 0 ∧ ¬ig) ∨ ms = []
                  then IdxResult.err 2
                  else fin_loop dm0 (ms.length + 1) [] ms) = r := h
              by_cases h5 : min_member_size ≤ pos ∨ (pos ≠ 0 ∧ ¬ig) ∨ ms = []
              · rw [if_pos h5] at h4
                cases h4
                exact ⟨by simp, by intro out dm hh; cases hh⟩
              · rw [if_neg h5] at h4
                obtain ⟨hni, hok⟩ := fin_loop_nil_spec (ms.length + 1) ms dm0
                  (Nat.lt_succ_self _) hch
                constructor
                · intro hbad
                  exact hni (h4.trans hbad)
                · intro out dm hh
                  obtain ⟨hdm, hmc, hdc, hmap, hhd⟩ := hok out dm (h4.trans hh)
                  subst hdm
                  refine ⟨mchain_pairwise hmc, hdc, ?_, ?_⟩
                  · intro m0 hm0
                    cases out with
                    | nil => cases hm0
                    | cons o t =>
                      simp only [List.head?_cons, Option.mem_def,
                        Option.some_inj] at hm0
                      subst hm0
                      cases ms with
                      | nil => simp at hhd
                      | cons q t2 =>
                        simp only [List.head?_cons] at hhd
                        have hqq : o.dpos = q.dpos := by simpa using hhd
                        rw [hqq]
                        exact hdz q (List.mem_cons_self q t2)
                  · intro hig
                    have hmaps : out.map (·.dictionary_size) =
                        ms.map (·.dictionary_size) := by
                      have h6 := congrArg
                        (List.map (fun k : Nat × Nat × Nat × Nat => k.2.2.2)) hmap
                      simpa [List.map_map, Function.comp, IMember.mkey] using h6
                    have h7 := hds hig
                    unfold DsInv at h7
                    rw [hmaps]
                    exact h7
            · have h4 : IdxResult.err rr = r := h
              cases h4
              exact ⟨by simp, by intro out dm hh; cases hh⟩

/-- C4 (amended): for every file and options, the Lzip_index construction
never reaches the internal overlap error, and every successfully built index
has its member blocks pairwise non-overlapping in forward file order, its
data blocks chained (`data_block[i+1].pos = data_block[i].end`) starting at
position 0, and — when gaps are not being ignored — its recorded
`dictionary_size_` equal to the maximum dictionary size over all members. -/
theorem C4_lzip_index_amended (f : List Nat) (cl : ClOpts) (ibd ig : Bool)
    (mp : Nat) :
    Lzip_index_build f cl ibd ig mp ≠ .internalError ∧
    ∀ out dm, Lzip_index_build f cl ibd ig mp = .ok out dm →
      List.Pairwise (fun a b => a.mend ≤ b.mpos) out ∧
      List.Chain' (fun a b => b.dpos = a.dend) out ∧
      (∀ m0 ∈ out.head?, m0.dpos = 0) ∧
      (ig = false → dm = (out.map (·.dictionary_size)).foldr max 0) :=
  Lzip_index_build_spec f cl ibd ig mp _ rfl

/-- A 72-byte file: a 36-byte region that looks like an lzip header with
dictionary-size byte `0x1D` (2^29) followed by garbage (a gap), then a
36-byte self-consistent member with dictionary-size byte `0x0C` (4096). -/
def cexFile : List Nat :=
  [0x4C, 0x5A, 0x49, 0x50, 1, 0x1D, 0, 1, 1, 1, 1, 1, 1, 1, 1, 1] ++
    List.replicate 20 0 ++
  ([0x4C, 0x5A, 0x49, 0x50, 1, 0x0C] ++ List.replicate 10 0 ++
    [0x78, 0x56, 0x34, 0x12] ++ [10, 0, 0, 0, 0, 0, 0, 0] ++
    [36, 0, 0, 0, 0, 0, 0, 0])

/-- C4 counterexample to the claim as stated: indexing `cexFile` with
`ignore_gaps` set succeeds and records `dictionary_size_ = 4096`, but the
gap pseudo-member carries dictionary size 2^29 = 536870912, so the recorded
value is not the maximum dictionary size over all members of the index. -/
theorem C4_lzip_index_cex :
    Lzip_index_build cexFile ⟨true, false, false, false⟩ false true 0 =
      IdxResult.ok [⟨0, 36, 0, 36, 536870912⟩, ⟨36, 10, 36, 36, 4096⟩] 4096 ∧
    (4096 : Nat) ≠
      (([⟨0, 36, 0, 36, 536870912⟩, ⟨36, 10, 36, 36, 4096⟩] :
        List IMember).map (·.dictionary_size)).foldr max 0 := by
  decide

/-- A single 36-byte self-consistent member file. -/
def okFile : List Nat :=
  [0x4C, 0x5A, 0x49, 0x50, 1, 0x0C] ++ List.replicate 10 0 ++
    [0x78, 0x56, 0x34, 0x12] ++ [10, 0, 0, 0, 0, 0, 0, 0] ++
    [36, 0, 0, 0, 0, 0, 0, 0]

/-- C4 witness: the amended theorem applied to a concrete successful index
of a one-member file. -/
theorem C4_lzip_index_amended_witness :
    Lzip_index_build okFile ⟨false, false, false, false⟩ false false 0 =
      IdxResult.ok [⟨0, 10, 0, 36, 4096⟩] 4096 ∧
    (List.Pairwise (fun a b => a.mend ≤ b.mpos)
        ([⟨0, 10, 0, 36, 4096⟩] : List IMember) ∧
      List.Chain' (fun a b => b.dpos = a.dend)
        ([⟨0, 10, 0, 36, 4096⟩] : List IMember) ∧
      (∀ m0 ∈ ([⟨0, 10, 0, 36, 4096⟩] : List IMember).head?, m0.dpos = 0) ∧
      (false = false → (4096 : Nat) =
        (([⟨0, 10, 0, 36, 4096⟩] : List IMember).map
          (·.dictionary_size)).foldr max 0)) :=
  ⟨by decide,
   (C4_lzip_index_amended okFile ⟨false, false, false, false⟩ false false 0).2
     [⟨0, 10, 0, 36, 4096⟩] 4096 (by decide)⟩

/-! ### The LZMA member tester (mtester.h, mtester.cc)

Shallow embedding of `Range_mtester` and `LZ_mtester`.  Machine integers are
`Nat`s; `uint32_t` wraparound is written `% w32` exactly where the C++ value
can exceed 32 bits.  The probability arrays are total functions from flat
indices, all initialised to `bit_model_total / 2`. -/

def w32 : Nat := 2 ^ 32

-- lzip.h lines 42-72
def literal_context_bits : Nat := 3
def pos_state_bits : Nat := 2
def pos_states : Nat := 1 <<< pos_state_bits
def pos_state_mask : Nat := pos_states - 1
def len_states : Nat := 4
def dis_slot_bits : Nat := 6
def start_dis_model : Nat := 4
def end_dis_model : Nat := 14
def modeled_distances : Nat := 1 <<< (end_dis_model / 2)
def dis_align_bits : Nat := 4
def dis_align_size : Nat := 1 <<< dis_align_bits
def len_low_bits : Nat := 3
def len_mid_bits : Nat := 3
def len_high_bits : Nat := 8
def len_low_symbols : Nat := 1 <<< len_low_bits
def len_mid_symbols : Nat := 1 <<< len_mid_bits
def len_high_symbols : Nat := 1 <<< len_high_bits
def min_match_len : Nat := 2
def bit_model_move_bits : Nat := 5
def bit_model_total_bits : Nat := 11
def bit_model_total : Nat := 1 <<< bit_model_total_bits

-- lzip.h lines 20-39 (class State); the state is its 0..11 integer
def State_set_char (st : Nat) : Nat :=
  [0, 0, 0, 0, 1, 2, 3, 4, 5, 6, 4, 5].getD st 0
def State_is_char (st : Nat) : Bool := st < 7
def State_set_match (st : Nat) : Nat := if st < 7 then 7 else 10
def State_set_rep (st : Nat) : Nat := if st < 7 then 8 else 11
def State_set_shortrep (st : Nat) : Nat := if st < 7 then 9 else 11

-- lzip.h lines 74-79
def get_len_state (len : Nat) : Nat :=
  min (len - min_match_len) (len_states - 1)
def get_lit_state (prev_byte : Nat) : Nat :=
  prev_byte >>> (8 - literal_context_bits)

-- lzip.h class CRC32 (IEEE polynomial), one table entry = 8 rounds
def crc32_round (c : Nat) : Nat :=
  if c % 2 = 1 then 0xEDB88320 ^^^ (c >>> 1) else c >>> 1
def crc32_entry (n : Nat) : Nat := crc32_round^[8] n
def crc32_update_byte (crc b : Nat) : Nat :=
  crc32_entry ((crc ^^^ b) % 256) ^^^ (crc >>> 8)
def crc32_update_buf (crc : Nat) (l : List Nat) : Nat :=
  l.foldl crc32_update_byte crc

/-- Mutable part of `Range_mtester` (mtester.h lines 18-36); the input
buffer and its size are passed separately as `f` and `f.length`. -/
structure RS where
  rpos : Nat
  code : Nat
  range : Nat
deriving Repr, DecidableEq

def rm_finished (f : List Nat) (rs : RS) : Bool := f.length ≤ rs.rpos

-- mtester.h lines 41-46: at EOF returns 0xFF without advancing pos
def rm_get_byte (f : List Nat) (rs : RS) : Nat × RS :=
  if f.length ≤ rs.rpos then (0xFF, rs)
  else (f.getD rs.rpos 0, { rs with rpos := rs.rpos + 1 })

-- mtester.h lines 56-62: reset code/range, discard one byte, read 4
def rm_load (f : List Nat) (rs : RS) : RS :=
  let rs := { rs with code := 0, range := 0xFFFFFFFF }
  let (_, rs) := rm_get_byte f rs
  let (b1, rs) := rm_get_byte f rs
  let (b2, rs) := rm_get_byte f rs
  let (b3, rs) := rm_get_byte f rs
  let (b4, rs) := rm_get_byte f rs
  { rs with code := ((((b1 <<< 8 ||| b2) <<< 8 ||| b3) <<< 8 ||| b4)) % w32 }

-- mtester.h lines 64-68
def rm_normalize (f : List Nat) (rs : RS) : RS :=
  if rs.range ≤ 0x00FFFFFF then
    let (b, rs') := rm_get_byte f rs
    { rs' with range := rs.range <<< 8, code := ((rs.code <<< 8) ||| b) % w32 }
  else rs

-- mtester.h lines 70-84: fixed-probability direct bits
def rm_decode (f : List Nat) : Nat → Nat → RS → Nat × RS
  | 0, symbol, rs => (symbol, rs)
  | n + 1, symbol, rs =>
    let rs := rm_normalize f rs
    let range := rs.range >>> 1
    if range ≤ rs.code then
      rm_decode f n (2 * symbol + 1) { rs with range := range, code := rs.code - range }
    else
      rm_decode f n (2 * symbol) { rs with range := range }

def dbit_update0 (p : Nat) : Nat := p + ((bit_model_total - p) >>> bit_model_move_bits)
def dbit_update1 (p : Nat) : Nat := p - (p >>> bit_model_move_bits)

-- mtester.h lines 86-104: one adaptive bit; returns (bit, new probability)
def rm_decode_bit (f : List Nat) (p : Nat) (rs : RS) : Bool × Nat × RS :=
  let rs := rm_normalize f rs
  let bound := (rs.range >>> bit_model_total_bits) * p
  if rs.code < bound then
    (false, dbit_update0 p, { rs with range := bound })
  else
    (true, dbit_update1 p, { rs with code := rs.code - bound, range := rs.range - bound })

def b2n (b : Bool) : Nat := if b then 1 else 0

/-- Bit-tree decoder (mtester.h `decode_tree6`/`decode_tree8` and the inner
loop of `decode_matched`): reads `bm (off + symbol)` per bit, updating the
map at that index. -/
def rm_decode_tree (f : List Nat) : Nat → (Nat → Nat) → Nat → Nat → RS →
    Nat × (Nat → Nat) × RS
  | 0, bm, _, symbol, rs => (symbol, bm, rs)
  | n + 1, bm, off, symbol, rs =>
    let (bit, p', rs') := rm_decode_bit f (bm (off + symbol)) rs
    rm_decode_tree f n (fun i => if i = off + symbol then p' else bm i) off
      (2 * symbol + b2n bit) rs'

def rm_decode_tree6 (f : List Nat) (bm : Nat → Nat) (off : Nat) (rs : RS) :
    Nat × (Nat → Nat) × RS :=
  let (s, bm', rs') := rm_decode_tree f 6 bm off 1 rs
  (s % 64, bm', rs')

def rm_decode_tree8 (f : List Nat) (bm : Nat → Nat) (off : Nat) (rs : RS) :
    Nat × (Nat → Nat) × RS :=
  let (s, bm', rs') := rm_decode_tree f 8 bm off 1 rs
  (s % 256, bm', rs')

/-- Reversed bit-tree decoder (mtester.h lines 174-192). -/
def rm_dtr_go (f : List Nat) : Nat → Nat → (Nat → Nat) → Nat → Nat → Nat → RS →
    Nat × (Nat → Nat) × RS
  | 0, _, bm, _, _, symbol, rs => (symbol, bm, rs)
  | n + 1, i, bm, off, model, symbol, rs =>
    let (bit, p', rs') := rm_decode_bit f (bm (off + model)) rs
    let bm' := fun k => if k = off + model then p' else bm k
    if bit then
      rm_dtr_go f n (i + 1) bm' off (2 * model + 1) (symbol ||| (1 <<< i)) rs'
    else
      rm_dtr_go f n (i + 1) bm' off (2 * model) symbol rs'

def rm_decode_tree_reversed (f : List Nat) (bm : Nat → Nat) (off num_bits : Nat)
    (rs : RS) : Nat × (Nat → Nat) × RS :=
  rm_dtr_go f num_bits 0 bm off 1 0 rs

/-- Tail of `decode_matched` (mtester.h line 205): plain tree bits until the
symbol reaches 0x100; at most 8 iterations, so fuel 8 is never exhausted. -/
def rm_dm_tail (f : List Nat) : Nat → (Nat → Nat) → Nat → Nat → RS →
    Nat × (Nat → Nat) × RS
  | 0, bm, _, symbol, rs => (symbol, bm, rs)
  | n + 1, bm, off, symbol, rs =>
    if symbol < 0x100 then
      let (bit, p', rs') := rm_decode_bit f (bm (off + symbol)) rs
      rm_dm_tail f n (fun i => if i = off + symbol then p' else bm i) off
        (2 * symbol + b2n bit) rs'
    else (symbol, bm, rs)

/-- `decode_matched` main loop (mtester.h lines 194-210); `off` is the base
of the 0x300-entry literal array, `bm1 = off + 0x100`.  The symbol doubles
each step, so 8 units of fuel are never exhausted. -/
def rm_dm_go (f : List Nat) : Nat → (Nat → Nat) → Nat → Nat → Nat → RS →
    Nat × (Nat → Nat) × RS
  | 0, bm, _, _, symbol, rs => (symbol % 256, bm, rs)
  | n + 1, bm, off, match_byte, symbol, rs =>
    if symbol < 0x100 then
      let mb2 := match_byte <<< 1
      let match_bit := mb2 &&& 0x100
      let (bit, p', rs') := rm_decode_bit f (bm (off + 0x100 + symbol + match_bit)) rs
      let bm' := fun i => if i = off + 0x100 + symbol + match_bit then p' else bm i
      let symbol' := 2 * symbol + b2n bit
      if match_bit >>> 8 ≠ b2n bit then
        let (s, bm'', rs'') := rm_dm_tail f 8 bm' off symbol' rs'
        (s % 256, bm'', rs'')
      else rm_dm_go f n bm' off mb2 symbol' rs'
    else (symbol % 256, bm, rs)

def rm_decode_matched (f : List Nat) (bm : Nat → Nat) (off match_byte : Nat)
    (rs : RS) : Nat × (Nat → Nat) × RS :=
  rm_dm_go f 8 bm off match_byte 1 rs

/-- `Len_model` (lzip.h lines 91-98): the two choices and three bit-trees;
`low`/`mid` are indexed `pos_state * 8 + tree_index`. -/
structure LenM where
  choice1 : Nat
  choice2 : Nat
  low : Nat → Nat
  mid : Nat → Nat
  high : Nat → Nat

def LenM.init : LenM :=
  ⟨bit_model_total / 2, bit_model_total / 2,
   fun _ => bit_model_total / 2, fun _ => bit_model_total / 2,
   fun _ => bit_model_total / 2⟩

/-- The probability arrays of `LZ_mtester` (mtester.h lines 262-274), as
total maps from flat indices.  Two-dimensional arrays are flattened
row-major exactly as indexed below. -/
structure Probs where
  bm_literal : Nat → Nat    -- lit_state * 0x300 + symbol
  bm_match : Nat → Nat      -- state * pos_states + pos_state
  bm_rep : Nat → Nat        -- state
  bm_rep0 : Nat → Nat
  bm_rep1 : Nat → Nat
  bm_rep2 : Nat → Nat
  bm_len : Nat → Nat        -- state * pos_states + pos_state
  bm_dis_slot : Nat → Nat   -- len_state * 64 + tree_index
  bm_dis : Nat → Nat
  bm_align : Nat → Nat
  mlm : LenM
  rlm : LenM

def Probs.init : Probs :=
  ⟨fun _ => bit_model_total / 2, fun _ => bit_model_total / 2,
   fun _ => bit_model_total / 2, fun _ => bit_model_total / 2,
   fun _ => bit_model_total / 2, fun _ => bit_model_total / 2,
   fun _ => bit_model_total / 2, fun _ => bit_model_total / 2,
   fun _ => bit_model_total / 2, fun _ => bit_model_total / 2,
   LenM.init, LenM.init⟩

/-- `decode_len` (mtester.h lines 212-232). -/
def rm_decode_len (f : List Nat) (lm : LenM) (pos_state : Nat) (rs : RS) :
    Nat × LenM × RS :=
  let (b1, c1', rs) := rm_decode_bit f lm.choice1 rs
  if b1 = false then
    let (sym, low', rs) := rm_decode_tree f 3 lm.low (pos_state * 8) 1 rs
    ((sym % 8) + min_match_len, { lm with choice1 := c1', low := low' }, rs)
  else
    let (b2, c2', rs) := rm_decode_bit f lm.choice2 rs
    if b2 = false then
      let (sym, mid', rs) := rm_decode_tree f 3 lm.mid (pos_state * 8) 1 rs
      ((sym % 8) + min_match_len + len_low_symbols,
       { lm with choice1 := c1', choice2 := c2', mid := mid' }, rs)
    else
      let (sym, high', rs) := rm_decode_tree f 8 lm.high 0 1 rs
      ((sym % 256) + min_match_len + len_low_symbols + len_mid_symbols,
       { lm with choice1 := c1', choice2 := c2', high := high' }, rs)

/-- The mutable state of `LZ_mtester` (mtester.h lines 237-274); the
statistics fields (`max_rep0` etc.) are omitted, they do not affect the
returned code.  `dict` is the circular output buffer of length
`dictionary_size`; C++ leaves it uninitialised except for the last byte,
the model zero-fills it (uninitialised bytes are never read on any path
that affects the result). -/
structure MTState where
  rs : RS
  pdpos : Nat           -- partial_data_pos
  dict : List Nat
  pos : Nat
  stream_pos : Nat
  crc : Nat
  rep0 : Nat
  rep1 : Nat
  rep2 : Nat
  rep3 : Nat
  st : Nat
  posWrapped : Bool
  pr : Probs

/-- The `LZ_mtester` constructor (mtester.h lines 339-363): the range
decoder starts just after the 6-byte header. -/
def mt_init (ds : Nat) : MTState :=
  ⟨⟨6, 0, 0xFFFFFFFF⟩, 0, List.replicate ds 0, 0, 0, 0xFFFFFFFF,
   0, 0, 0, 0, 0, false, Probs.init⟩

def mt_data_position (s : MTState) : Nat := s.pdpos + s.pos

def peek_prev (ds : Nat) (s : MTState) : Nat :=
  s.dict.getD ((if 0 < s.pos then s.pos else ds) - 1) 0

def peek (ds : Nat) (s : MTState) (distance : Nat) : Nat :=
  s.dict.getD ((if distance < s.pos then 0 else ds) + s.pos - distance - 1) 0

/-- `flush_data` (mtester.cc lines 78-91) for the tester (`outfd < 0`,
no md5): update the CRC over `dict[stream_pos..pos)` and wrap `pos`. -/
def flush_data (ds : Nat) (s : MTState) : MTState :=
  if s.stream_pos < s.pos then
    let crc' := crc32_update_buf s.crc ((s.dict.drop s.stream_pos).take (s.pos - s.stream_pos))
    if ds ≤ s.pos then
      { s with crc := crc', pdpos := s.pdpos + s.pos, pos := 0,
               posWrapped := true, stream_pos := 0 }
    else { s with crc := crc', stream_pos := s.pos }
  else s

/-- `put_byte` (mtester.h lines 290-294). -/
def put_byte (ds : Nat) (s : MTState) (b : Nat) : MTState :=
  let s := { s with dict := s.dict.set s.pos b, pos := s.pos + 1 }
  if ds ≤ s.pos then flush_data ds s else s

/-- `copy_block` (mtester.h lines 296-325): the fast paths are `memcpy`
specialisations of the byte loop; all three paths equal this sequential
loop.  `i` is the circular read cursor. -/
def copy_block_go (ds : Nat) : Nat → Nat → MTState → MTState
  | 0, _, s => s
  | len + 1, i, s =>
    let s := put_byte ds s (s.dict.getD i 0)
    copy_block_go ds len (if ds ≤ i + 1 then 0 else i + 1) s

def copy_block (ds : Nat) (s : MTState) (distance len : Nat) : MTState :=
  copy_block_go ds len
    ((if distance < s.pos then 0 else ds) + s.pos - distance - 1) s

/-- `Range_mtester::get_trailer` and `LZ_mtester::check_trailer`
(mtester.cc lines 94-140): compare the stored CRC, data size and member
size against the computed ones. -/
def check_trailer (f : List Nat) (s : MTState) : Bool × MTState :=
  if f.length < s.rs.rpos + 20 then (false, s)
  else
    let t := subbytes f s.rs.rpos 20
    let s := { s with rs := { s.rs with rpos := s.rs.rpos + 20 } }
    (decide (Trailer.data_crc t = s.crc ^^^ 0xFFFFFFFF) &&
     decide (Trailer.data_size t = mt_data_position s) &&
     decide (Trailer.member_size t = s.rs.rpos), s)

/-- Point update of a flat probability map. -/
def upd (m : Nat → Nat) (i v : Nat) : Nat → Nat := fun k => if k = i then v else m k

/-- Exit reasons of `test_member`'s main loop, one constructor per `return`
statement in mtester.cc lines 146-237. -/
inductive TMExit where
  | eosTrailer (ok : Bool)   -- EOS marker: 0 if the trailer checks, else 3
  | badMarker (len : Nat)    -- any other marker: return 4
  | badDistance              -- distance too large: return 1
  | truncated                -- input exhausted: return 2
  | posLimit                 -- a position limit reached: return -1
  | outOfFuel
deriving Repr, DecidableEq

/-- Literal packet (mtester.cc lines 159-165).  `is_char_set_char()` sets
the state and reports the new state < 4, which holds iff the old state < 7. -/
def tm_literal (f : List Nat) (ds : Nat) (s : MTState) : MTState :=
  let off := get_lit_state (peek_prev ds s) * 0x300
  let stOld := s.st
  let s := { s with st := State_set_char stOld }
  if State_is_char stOld then
    let (b, lit', rs') := rm_decode_tree8 f s.pr.bm_literal off s.rs
    put_byte ds { s with rs := rs', pr := { s.pr with bm_literal := lit' } } b
  else
    let (b, lit', rs') :=
      rm_decode_matched f s.pr.bm_literal off (peek ds s s.rep0) s.rs
    put_byte ds { s with rs := rs', pr := { s.pr with bm_literal := lit' } } b

/-- Shared tail of the repeated-match branch (mtester.cc lines 192-193 and
233): `state.set_rep()`, length, copy. -/
def tm_rep_tail (f : List Nat) (ds pos_state : Nat) (s : MTState) : MTState :=
  let s := { s with st := State_set_rep s.st }
  let (len, rlm', rs) := rm_decode_len f s.pr.rlm pos_state s.rs
  let s := { s with rs := rs, pr := { s.pr with rlm := rlm' } }
  copy_block ds s s.rep0 len

/-- Repeated-match packet (mtester.cc lines 169-194, after the 2nd bit). -/
def tm_rep (f : List Nat) (ds : Nat) (s : MTState) (pos_state : Nat) : MTState :=
  let (b3, p3, rs) := rm_decode_bit f (s.pr.bm_rep0 s.st) s.rs
  let s := { s with rs := rs, pr := { s.pr with bm_rep0 := upd s.pr.bm_rep0 s.st p3 } }
  if b3 = false then
    let (b4, p4, rs) :=
      rm_decode_bit f (s.pr.bm_len (s.st * pos_states + pos_state)) s.rs
    let s := { s with rs := rs, pr :=
      { s.pr with bm_len := upd s.pr.bm_len (s.st * pos_states + pos_state) p4 } }
    if b4 = false then
      let s := { s with st := State_set_shortrep s.st }
      put_byte ds s (peek ds s s.rep0)
    else tm_rep_tail f ds pos_state s
  else
    let (b4, p4, rs) := rm_decode_bit f (s.pr.bm_rep1 s.st) s.rs
    let s := { s with rs := rs, pr := { s.pr with bm_rep1 := upd s.pr.bm_rep1 s.st p4 } }
    if b4 = false then
      tm_rep_tail f ds pos_state { s with rep1 := s.rep0, rep0 := s.rep1 }
    else
      let (b5, p5, rs) := rm_decode_bit f (s.pr.bm_rep2 s.st) s.rs
      let s := { s with rs := rs, pr := { s.pr with bm_rep2 := upd s.pr.bm_rep2 s.st p5 } }
      if b5 = false then
        tm_rep_tail f ds pos_state
          { s with rep2 := s.rep1, rep1 := s.rep0, rep0 := s.rep2 }
      else
        tm_rep_tail f ds pos_state
          { s with rep3 := s.rep2, rep2 := s.rep1, rep1 := s.rep0, rep0 := s.rep3 }

/-- The distance check of mtester.cc line 230, on the already-updated
state: either the decoder error exit or the copied block. -/
def tm_dist_check (ds : Nat) (s : MTState) (len : Nat) :
    (TMExit × MTState) ⊕ MTState :=
  if ds ≤ s.rep0 ∨ (s.pos ≤ s.rep0 ∧ s.posWrapped = false) then
    .inl (.badDistance, s)
  else .inr (copy_block ds s s.rep0 len)

/-- End of the match branch (mtester.cc lines 227-233): rotate the
distances, set the state, check the distance against the live dictionary,
copy. -/
def tm_match_fin (ds : Nat) (s : MTState) (len distance : Nat) :
    (TMExit × MTState) ⊕ MTState :=
  tm_dist_check ds
    { s with rep3 := s.rep2, rep2 := s.rep1, rep1 := s.rep0,
             rep0 := distance, st := State_set_match s.st } len

/-- Marker handling (mtester.cc lines 212-224), after the normalize and
flush of lines 214-215 have been applied to `s`: the EOS marker length
checks the trailer, every other length is the unsupported-marker exit. -/
def tm_marker_core (f : List Nat) (s : MTState) (len : Nat) : TMExit × MTState :=
  if len = min_match_len then
    let (ok, s') := check_trailer f s
    (.eosTrailer ok, s')
  else (.badMarker len, s)

def tm_marker (f : List Nat) (ds : Nat) (s : MTState) (len : Nat) :
    TMExit × MTState :=
  tm_marker_core f (flush_data ds { s with rs := rm_normalize f s.rs }) len

/-- Last step of the distance assembly (mtester.cc lines 209-224): after
the aligned distance is complete, either the marker handling (distance
0xFFFFFFFF) or the ordinary match end. -/
def tm_match_dis_fin (f : List Nat) (ds : Nat) (s : MTState) (len distance : Nat) :
    (TMExit × MTState) ⊕ MTState :=
  if distance = 0xFFFFFFFF then .inl (tm_marker f ds s len)
  else tm_match_fin ds s len distance

/-- Distance slots `end_dis_model ≤ slot` (mtester.cc lines 207-225):
direct bits then the aligned reversed tree; `(slot >>> 1) - 1` is
`direct_bits` and `(2 ||| (slot &&& 1)) <<< direct_bits` the base distance. -/
def tm_match_dis_align (f : List Nat) (ds : Nat) (s : MTState) (len slot : Nat) :
    (TMExit × MTState) ⊕ MTState :=
  match rm_decode f (((slot >>> 1) - 1) - dis_align_bits) 0 s.rs with
  | (d1, rs) =>
    match rm_decode_tree_reversed f s.pr.bm_align 0 dis_align_bits rs with
    | (d2, al', rs2) =>
      tm_match_dis_fin f ds
        { s with rs := rs2, pr := { s.pr with bm_align := al' } } len
        ((2 ||| (slot &&& 1)) <<< ((slot >>> 1) - 1) + (d1 <<< dis_align_bits) + d2)

/-- Distance slots `start_dis_model ≤ slot < end_dis_model` (mtester.cc
lines 204-206): the reversed tree over `bm_dis`. -/
def tm_match_dis_tree (f : List Nat) (ds : Nat) (s : MTState) (len slot : Nat) :
    (TMExit × MTState) ⊕ MTState :=
  match rm_decode_tree_reversed f s.pr.bm_dis
      ((2 ||| (slot &&& 1)) <<< ((slot >>> 1) - 1) - slot) ((slot >>> 1) - 1) s.rs with
  | (sym, dis', rs) =>
    tm_match_fin ds { s with rs := rs, pr := { s.pr with bm_dis := dis' } } len
      ((2 ||| (slot &&& 1)) <<< ((slot >>> 1) - 1) + sym)

/-- Distance decoding by slot class (mtester.cc lines 199-226). -/
def tm_match_dis (f : List Nat) (ds : Nat) (s : MTState) (len slot : Nat) :
    (TMExit × MTState) ⊕ MTState :=
  if slot < start_dis_model then tm_match_fin ds s len slot
  else if slot < end_dis_model then tm_match_dis_tree f ds s len slot
  else tm_match_dis_align f ds s len slot

/-- Slot tree of the match packet (mtester.cc line 198). -/
def tm_match_slot (f : List Nat) (ds : Nat) (s : MTState) (len : Nat) :
    (TMExit × MTState) ⊕ MTState :=
  match rm_decode_tree6 f s.pr.bm_dis_slot (get_len_state len * 64) s.rs with
  | (slot, slot', rs) =>
    tm_match_dis f ds { s with rs := rs, pr := { s.pr with bm_dis_slot := slot' } }
      len slot

/-- Match packet (mtester.cc lines 195-233, after 2nd bit = 0). -/
def tm_match (f : List Nat) (ds : Nat) (s : MTState) (pos_state : Nat) :
    (TMExit × MTState) ⊕ MTState :=
  match rm_decode_len f s.pr.mlm pos_state s.rs with
  | (len, mlm', rs) =>
    tm_match_slot f ds { s with rs := rs, pr := { s.pr with mlm := mlm' } } len

/-- After the 2nd bit (mtester.cc line 169): a repeated match or a match. -/
def tm_step_rep_or_match (f : List Nat) (ds : Nat) (s : MTState)
    (pos_state : Nat) (b2 : Bool) : (TMExit × MTState) ⊕ MTState :=
  if b2 = true then .inr (tm_rep f ds s pos_state)
  else tm_match f ds s pos_state

def tm_step_second_bit (f : List Nat) (ds : Nat) (s : MTState) (pos_state : Nat) :
    (TMExit × MTState) ⊕ MTState :=
  match rm_decode_bit f (s.pr.bm_rep s.st) s.rs with
  | (b2, p2, rs) =>
    tm_step_rep_or_match f ds
      { s with rs := rs, pr := { s.pr with bm_rep := upd s.pr.bm_rep s.st p2 } }
      pos_state b2

/-- After the 1st bit (mtester.cc line 157): a literal or the rest. -/
def tm_step_lit_or_rest (f : List Nat) (ds : Nat) (s : MTState)
    (pos_state : Nat) (b1 : Bool) : (TMExit × MTState) ⊕ MTState :=
  if b1 = false then .inr (tm_literal f ds s)
  else tm_step_second_bit f ds s pos_state

def tm_step_first_bit (f : List Nat) (ds : Nat) (s : MTState) (pos_state : Nat) :
    (TMExit × MTState) ⊕ MTState :=
  match rm_decode_bit f (s.pr.bm_match (s.st * pos_states + pos_state)) s.rs with
  | (b1, p1, rs) =>
    tm_step_lit_or_rest f ds
      { s with rs := rs, pr :=
        { s.pr with bm_match := upd s.pr.bm_match (s.st * pos_states + pos_state) p1 } }
      pos_state b1

/-- One iteration of the `while !rdec.finished()` loop of `test_member`
(mtester.cc lines 152-234): either an exit with its reason, or the state
after one decoded packet. -/
def tm_step (f : List Nat) (ds mlimit dlimit : Nat) (s : MTState) :
    (TMExit × MTState) ⊕ MTState :=
  if rm_finished f s.rs then .inl (.truncated, s)
  else if mlimit ≤ s.rs.rpos ∨ dlimit ≤ mt_data_position s then
    .inl (.posLimit, flush_data ds s)
  else tm_step_first_bit f ds s (mt_data_position s &&& pos_state_mask)

/-- The main loop, fuel-bounded.  Every iteration strictly shrinks the
range-decoder state (each decoded bit shrinks `range` by at least a
1/2048 fraction and a byte is consumed at each refill), so for any input a
fuel of `11500 * (f.length + 2)` is never exhausted. -/
def tm_loop (f : List Nat) (ds mlimit dlimit : Nat) : Nat → MTState → TMExit × MTState
  | 0, s => (.outOfFuel, s)
  | fuel + 1, s =>
    match tm_step f ds mlimit dlimit s with
    | .inl r => r
    | .inr s' => tm_loop f ds mlimit dlimit fuel s'

/-- The mapping from loop exits to `test_member`'s return codes, one case
per `return` statement of mtester.cc lines 146-237. -/
def tm_code : TMExit × MTState → Int × MTState
  | (.eosTrailer true, s') => (0, s')
  | (.eosTrailer false, s') => (3, s')
  | (.badMarker _, s') => (4, s')
  | (.badDistance, s') => (1, s')
  | (.truncated, s') => (2, s')
  | (.posLimit, s') => (-1, s')
  | (.outOfFuel, s') => (99, s')

/-- `LZ_mtester::test_member` (mtester.cc lines 146-237) with explicit
limits and fuel, returning the code and the final state. -/
def test_member (f : List Nat) (ds mlimit dlimit fuel : Nat) (s : MTState) :
    Int × MTState :=
  if mlimit < 6 + 5 then (-1, s)
  else
    let s := if s.rs.rpos = 6 then { s with rs := rm_load f s.rs } else s
    tm_code (tm_loop f ds mlimit dlimit fuel s)

/-- `test_member()` with the default limits (`LONG_MAX`, `LLONG_MAX`) on a
fresh tester, returning the code. -/
def test_member_code (f : List Nat) (ds fuel : Nat) : Int :=
  (test_member f ds (2 ^ 63 - 1) (2 ^ 63 - 1) fuel (mt_init ds)).1

/-- The fresh tester state after `rdec.load()` (the `member_position() ==
Lzip_header::size` branch of `test_member`). -/
def mt_loaded (f : List Nat) (ds : Nat) : MTState :=
  { mt_init ds with rs := rm_load f (mt_init ds).rs }

/-- A 36-byte well-formed empty member (EOS marker only; CRC 0, data size
0, member size 36), produced by a scratch LZMA range encoder. -/
def okMember : List Nat :=
  [76, 90, 73, 80, 1, 12, 0, 131, 255, 251, 255, 255, 192, 0, 0, 0, 0, 0, 0, 0,
   0, 0, 0, 0, 0, 0, 0, 0, 36, 0, 0, 0, 0, 0, 0, 0]

/-- `okMember` with the trailer's member-size field set to 37 instead of
36: the decoded data's CRC32 and length still equal the trailer fields. -/
def cexMember2 : List Nat :=
  [76, 90, 73, 80, 1, 12, 0, 131, 255, 251, 255, 255, 192, 0, 0, 0, 0, 0, 0, 0,
   0, 0, 0, 0, 0, 0, 0, 0, 37, 0, 0, 0, 0, 0, 0, 0]

/-- A member whose LZMA stream ends in a marker of length 3
(`min_match_len + 1`, the Sync Flush marker). -/
def cexMember3 : List Nat :=
  [76, 90, 73, 80, 1, 12, 0, 135, 255, 251, 255, 255, 192, 0, 0, 0]

/-- `tm_code` maps an exit to code 0 exactly on `eosTrailer true`. -/
theorem tm_code_zero (r : TMExit × MTState) :
    (tm_code r).1 = 0 ↔ r.1 = .eosTrailer true := by
  rcases r with ⟨e, s⟩
  cases e with
  | eosTrailer ok => cases ok <;> simp [tm_code]
  | badMarker len => simp [tm_code]
  | badDistance => simp [tm_code]
  | truncated => simp [tm_code]
  | posLimit => simp [tm_code]
  | outOfFuel => simp [tm_code]

/-- C2 (amended): `test_member` returns 0 exactly when the main loop ends
at an End-Of-Stream marker with an accepted trailer, and `check_trailer`
accepts exactly when the trailer is present and its stored CRC,
uncompressed size AND member size all equal the computed ones — three
fields, not the two of the claim. -/
theorem C2_test_member_amended (f : List Nat) (ds fuel : Nat) :
    (test_member_code f ds fuel = 0 ↔
      (tm_loop f ds (2 ^ 63 - 1) (2 ^ 63 - 1) fuel (mt_loaded f ds)).1 =
        .eosTrailer true) ∧
    (∀ s : MTState, (check_trailer f s).1 = true ↔
      (s.rs.rpos + 20 ≤ f.length ∧
       Trailer.data_crc (subbytes f s.rs.rpos 20) = s.crc ^^^ 0xFFFFFFFF ∧
       Trailer.data_size (subbytes f s.rs.rpos 20) = s.pdpos + s.pos ∧
       Trailer.member_size (subbytes f s.rs.rpos 20) = s.rs.rpos + 20)) := by
  constructor
  · unfold test_member_code test_member
    rw [if_neg (by decide : ¬ (2 ^ 63 - 1 : Nat) < 6 + 5)]
    simp only
    rw [if_pos (show (mt_init ds).rs.rpos = 6 from rfl)]
    exact tm_code_zero _
  · intro s
    unfold check_trailer
    by_cases h : f.length < s.rs.rpos + 20
    · rw [if_pos h]
      exact iff_of_false (by simp) (fun hh => absurd hh.1 (by omega))
    · rw [if_neg h]
      simp only [Bool.and_eq_true, decide_eq_true_eq, mt_data_position]
      constructor
      · rintro ⟨⟨a, b⟩, c⟩
        exact ⟨by omega, a, b, c⟩
      · rintro ⟨_, a, b, c⟩
        exact ⟨⟨a, b⟩, c⟩

/-- C2 counterexample: `cexMember2` decodes to completion (the loop ends at
the EOS marker and reads the trailer), the decoded data's CRC32 (0) and
length (0) equal the trailer's fields, yet `test_member` returns 3 because
the third compared field — the member size — is stored as 37, not 36. -/
theorem C2_test_member_cex :
    test_member_code cexMember2 4096 100 = 3 ∧
    (tm_loop cexMember2 4096 (2 ^ 63 - 1) (2 ^ 63 - 1) 100
      (mt_loaded cexMember2 4096)).1 = .eosTrailer false ∧
    Trailer.data_crc (subbytes cexMember2 16 20) = 0 ∧
    Trailer.data_size (subbytes cexMember2 16 20) = 0 ∧
    mt_data_position (tm_loop cexMember2 4096 (2 ^ 63 - 1) (2 ^ 63 - 1) 100
      (mt_loaded cexMember2 4096)).2 = 0 ∧
    (tm_loop cexMember2 4096 (2 ^ 63 - 1) (2 ^ 63 - 1) 100
      (mt_loaded cexMember2 4096)).2.crc ^^^ 0xFFFFFFFF = 0 := by
  decide

/-- C2 witness: on the intact `okMember` the equivalence is inhabited on
the true side. -/
theorem C2_test_member_amended_witness :
    test_member_code okMember 4096 100 = 0 ∧
    (tm_loop okMember 4096 (2 ^ 63 - 1) (2 ^ 63 - 1) 100
      (mt_loaded okMember 4096)).1 = .eosTrailer true :=
  ⟨(C2_test_member_amended okMember 4096 100).1.mpr (by decide), by decide⟩


/-- The only exit of the distance check is the decoder error, and at that
exit the guard of mtester.cc line 230 holds of the returned state. -/
theorem tm_dist_check_spec (ds : Nat) (s : MTState) (len : Nat) :
    ∀ e s', tm_dist_check ds s len = .inl (e, s') →
      e = .badDistance ∧
      (ds ≤ s'.rep0 ∨ (s'.pos ≤ s'.rep0 ∧ s'.posWrapped = false)) := by
  intro e s' h
  unfold tm_dist_check at h
  split at h
  · cases h
    exact ⟨rfl, by assumption⟩
  · cases h

theorem tm_match_fin_spec (ds : Nat) (s : MTState) (len distance : Nat) :
    ∀ e s', tm_match_fin ds s len distance = .inl (e, s') →
      e = .badDistance ∧
      (ds ≤ s'.rep0 ∨ (s'.pos ≤ s'.rep0 ∧ s'.posWrapped = false)) :=
  fun e s' h => tm_dist_check_spec ds _ len e s' h

/-- The marker exit carries `eosTrailer` exactly for the EOS length; any
other marker length is reported as `badMarker` with its length. -/
theorem tm_marker_core_spec (f : List Nat) (s : MTState) (len : Nat) :
    ∀ e s', tm_marker_core f s len = (e, s') →
      (∀ l, e = .badMarker l → l ≠ min_match_len) ∧
      e ≠ .badDistance ∧ e ≠ .truncated := by
  intro e s' h
  unfold tm_marker_core at h
  split at h
  · rcases hc : check_trailer f s with ⟨ok, s2⟩
    rw [hc] at h
    cases h
    exact ⟨fun l hl => (by cases hl), (by simp), (by simp)⟩
  · cases h
    rename_i hne
    refine ⟨?_, (by simp), (by simp)⟩
    intro l hl
    cases hl
    exact hne

theorem tm_marker_spec (f : List Nat) (ds : Nat) (s : MTState) (len : Nat) :
    ∀ e s', tm_marker f ds s len = (e, s') →
      (∀ l, e = .badMarker l → l ≠ min_match_len) ∧
      e ≠ .badDistance ∧ e ≠ .truncated :=
  fun e s' h => tm_marker_core_spec f _ len e s' h

/-- Marker-vs-match dispatch after the aligned distance is complete. -/
theorem tm_match_dis_fin_spec (f : List Nat) (ds : Nat) (s : MTState)
    (len distance : Nat) :
    ∀ e s', tm_match_dis_fin f ds s len distance = .inl (e, s') →
      (∀ l, e = .badMarker l → l ≠ min_match_len) ∧
      (e = .badDistance →
        ds ≤ s'.rep0 ∨ (s'.pos ≤ s'.rep0 ∧ s'.posWrapped = false)) ∧
      e ≠ .truncated := by
  intro e s' h
  unfold tm_match_dis_fin at h
  split at h
  · injection h with h2
    obtain ⟨hA, hB, hC⟩ := tm_marker_spec f ds _ len e s' h2
    exact ⟨hA, fun hd => absurd hd hB, hC⟩
  · obtain ⟨he, hc⟩ := tm_match_fin_spec _ _ _ _ e s' h
    subst he
    exact ⟨fun l hl => (by cases hl), fun _ => hc, (by simp)⟩

theorem tm_match_dis_align_spec (f : List Nat) (ds : Nat) (s : MTState)
    (len slot : Nat) :
    ∀ e s', tm_match_dis_align f ds s len slot = .inl (e, s') →
      (∀ l, e = .badMarker l → l ≠ min_match_len) ∧
      (e = .badDistance →
        ds ≤ s'.rep0 ∨ (s'.pos ≤ s'.rep0 ∧ s'.posWrapped = false)) ∧
      e ≠ .truncated := by
  intro e s' h
  unfold tm_match_dis_align at h
  split at h
  split at h
  exact tm_match_dis_fin_spec f ds _ len _ e s' h

theorem tm_match_dis_tree_spec (f : List Nat) (ds : Nat) (s : MTState)
    (len slot : Nat) :
    ∀ e s', tm_match_dis_tree f ds s len slot = .inl (e, s') →
      (∀ l, e = .badMarker l → l ≠ min_match_len) ∧
      (e = .badDistance →
        ds ≤ s'.rep0 ∨ (s'.pos ≤ s'.rep0 ∧ s'.posWrapped = false)) ∧
      e ≠ .truncated := by
  intro e s' h
  unfold tm_match_dis_tree at h
  split at h
  obtain ⟨he, hc⟩ := tm_match_fin_spec _ _ _ _ e s' h
  subst he
  exact ⟨fun l hl => (by cases hl), fun _ => hc, (by simp)⟩

theorem tm_match_dis_spec (f : List Nat) (ds : Nat) (s : MTState)
    (len slot : Nat) :
    ∀ e s', tm_match_dis f ds s len slot = .inl (e, s') →
      (∀ l, e = .badMarker l → l ≠ min_match_len) ∧
      (e = .badDistance →
        ds ≤ s'.rep0 ∨ (s'.pos ≤ s'.rep0 ∧ s'.posWrapped = false)) ∧
      e ≠ .truncated := by
  intro e s' h
  unfold tm_match_dis at h
  split at h
  · obtain ⟨he, hc⟩ := tm_match_fin_spec _ _ _ _ e s' h
    subst he
    exact ⟨fun l hl => (by cases hl), fun _ => hc, (by simp)⟩
  · split at h
    · exact tm_match_dis_tree_spec f ds s len slot e s' h
    · exact tm_match_dis_align_spec f ds s len slot e s' h

theorem tm_match_slot_spec (f : List Nat) (ds : Nat) (s : MTState) (len : Nat) :
    ∀ e s', tm_match_slot f ds s len = .inl (e, s') →
      (∀ l, e = .badMarker l → l ≠ min_match_len) ∧
      (e = .badDistance →
        ds ≤ s'.rep0 ∨ (s'.pos ≤ s'.rep0 ∧ s'.posWrapped = false)) ∧
      e ≠ .truncated := by
  intro e s' h
  unfold tm_match_slot at h
  split at h
  exact tm_match_dis_spec f ds _ len _ e s' h

/-- Exits of the match branch: code 4 only for marker lengths other than
`min_match_len` (the Sync Flush length included — `test_member` has no
sync-flush case), code 1 only with the distance guard satisfied, and never
a truncation report. -/
theorem tm_match_spec (f : List Nat) (ds : Nat) (s : MTState) (ps : Nat) :
    ∀ e s', tm_match f ds s ps = .inl (e, s') →
      (∀ l, e = .badMarker l → l ≠ min_match_len) ∧
      (e = .badDistance →
        ds ≤ s'.rep0 ∨ (s'.pos ≤ s'.rep0 ∧ s'.posWrapped = false)) ∧
      e ≠ .truncated := by
  intro e s' h
  unfold tm_match at h
  split at h
  exact tm_match_slot_spec f ds _ _ e s' h

theorem tm_step_rep_or_match_spec (f : List Nat) (ds : Nat) (s : MTState)
    (ps : Nat) (b2 : Bool) :
    ∀ e s', tm_step_rep_or_match f ds s ps b2 = .inl (e, s') →
      (∀ l, e = .badMarker l → l ≠ min_match_len) ∧
      (e = .badDistance →
        ds ≤ s'.rep0 ∨ (s'.pos ≤ s'.rep0 ∧ s'.posWrapped = false)) ∧
      e ≠ .truncated := by
  intro e s' h
  unfold tm_step_rep_or_match at h
  split at h
  · cases h
  · exact tm_match_spec f ds s ps e s' h

theorem tm_step_second_bit_spec (f : List Nat) (ds : Nat) (s : MTState)
    (ps : Nat) :
    ∀ e s', tm_step_second_bit f ds s ps = .inl (e, s') →
      (∀ l, e = .badMarker l → l ≠ min_match_len) ∧
      (e = .badDistance →
        ds ≤ s'.rep0 ∨ (s'.pos ≤ s'.rep0 ∧ s'.posWrapped = false)) ∧
      e ≠ .truncated := by
  intro e s' h
  unfold tm_step_second_bit at h
  split at h
  exact tm_step_rep_or_match_spec f ds _ ps _ e s' h

theorem tm_step_lit_or_rest_spec (f : List Nat) (ds : Nat) (s : MTState)
    (ps : Nat) (b1 : Bool) :
    ∀ e s', tm_step_lit_or_rest f ds s ps b1 = .inl (e, s') →
      (∀ l, e = .badMarker l → l ≠ min_match_len) ∧
      (e = .badDistance →
        ds ≤ s'.rep0 ∨ (s'.pos ≤ s'.rep0 ∧ s'.posWrapped = false)) ∧
      e ≠ .truncated := by
  intro e s' h
  unfold tm_step_lit_or_rest at h
  split at h
  · cases h
  · exact tm_step_second_bit_spec f ds s ps e s' h

theorem tm_step_first_bit_spec (f : List Nat) (ds : Nat) (s : MTState)
    (ps : Nat) :
    ∀ e s', tm_step_first_bit f ds s ps = .inl (e, s') →
      (∀ l, e = .badMarker l → l ≠ min_match_len) ∧
      (e = .badDistance →
        ds ≤ s'.rep0 ∨ (s'.pos ≤ s'.rep0 ∧ s'.posWrapped = false)) ∧
      e ≠ .truncated := by
  intro e s' h
  unfold tm_step_first_bit at h
  split at h
  exact tm_step_lit_or_rest_spec f ds _ ps _ e s' h

/-- Exit conditions of one loop iteration: markers other than EOS carry
their length, a distance error satisfies the guard, and truncation is
reported only with the input exhausted. -/
theorem tm_step_spec (f : List Nat) (ds ml dl : Nat) (s : MTState) :
    ∀ e s', tm_step f ds ml dl s = .inl (e, s') →
      (∀ l, e = .badMarker l → l ≠ min_match_len) ∧
      (e = .badDistance →
        ds ≤ s'.rep0 ∨ (s'.pos ≤ s'.rep0 ∧ s'.posWrapped = false)) ∧
      (e = .truncated → f.length ≤ s'.rs.rpos) := by
  intro e s' h
  unfold tm_step at h
  split at h
  · cases h
    rename_i hfin
    refine ⟨fun l hl => (by cases hl), fun hd => (by cases hd), fun _ => ?_⟩
    simpa [rm_finished] using hfin
  · split at h
    · cases h
      exact ⟨fun l hl => (by cases hl), fun hd => (by cases hd),
        fun ht => (by cases ht)⟩
    · obtain ⟨hA, hB, hC⟩ := tm_step_first_bit_spec f ds s _ e s' h
      exact ⟨hA, hB, fun ht => absurd ht hC⟩

/-- Exit conditions of the whole loop, by induction on the fuel. -/
theorem tm_loop_spec (f : List Nat) (ds ml dl : Nat) : ∀ fuel (s : MTState),
    (∀ l, (tm_loop f ds ml dl fuel s).1 = .badMarker l → l ≠ min_match_len) ∧
    ((tm_loop f ds ml dl fuel s).1 = .badDistance →
      ds ≤ (tm_loop f ds ml dl fuel s).2.rep0 ∨
        ((tm_loop f ds ml dl fuel s).2.pos ≤ (tm_loop f ds ml dl fuel s).2.rep0 ∧
         (tm_loop f ds ml dl fuel s).2.posWrapped = false)) ∧
    ((tm_loop f ds ml dl fuel s).1 = .truncated →
      f.length ≤ (tm_loop f ds ml dl fuel s).2.rs.rpos) := by
  intro fuel
  induction fuel with
  | zero =>
    intro s
    refine ⟨?_, ?_, ?_⟩ <;> simp [tm_loop]
  | succ fuel ih =>
    intro s
    rcases hs : tm_step f ds ml dl s with r | s2
    · rcases r with ⟨e, s'⟩
      obtain ⟨hA, hB, hC⟩ := tm_step_spec f ds ml dl s e s' hs
      have hv : tm_loop f ds ml dl (fuel + 1) s = (e, s') := by
        show (match tm_step f ds ml dl s with
              | .inl r => r
              | .inr s2 => tm_loop f ds ml dl fuel s2) = (e, s')
        rw [hs]
      rw [hv]
      exact ⟨hA, hB, hC⟩
    · have hv : tm_loop f ds ml dl (fuel + 1) s = tm_loop f ds ml dl fuel s2 := by
        show (match tm_step f ds ml dl s with
              | .inl r => r
              | .inr s2 => tm_loop f ds ml dl fuel s2) =
            tm_loop f ds ml dl fuel s2
        rw [hs]
      rw [hv]
      exact ih s2

/-- C3 (amended): for every input buffer, dictionary size, limits, fuel and
starting state, the tester's loop returns code 4 (`badMarker`) for ANY
marker length other than `min_match_len` — the Sync Flush marker length
`min_match_len + 1` included, since `test_member` (unlike
`debug_decode_member`) has no sync-flush case — returns code 1
(`badDistance`) only with the decoded distance at least the dictionary
size, or at least the number of bytes decoded so far before the buffer has
wrapped, and returns code 2 (`truncated`) only with the compressed input
exhausted. -/
theorem C3_test_member_amended (f : List Nat) (ds ml dl fuel : Nat)
    (s : MTState) :
    (∀ l, (tm_loop f ds ml dl fuel s).1 = .badMarker l → l ≠ min_match_len) ∧
    ((tm_loop f ds ml dl fuel s).1 = .badDistance →
      ds ≤ (tm_loop f ds ml dl fuel s).2.rep0 ∨
        ((tm_loop f ds ml dl fuel s).2.pos ≤ (tm_loop f ds ml dl fuel s).2.rep0 ∧
         (tm_loop f ds ml dl fuel s).2.posWrapped = false)) ∧
    ((tm_loop f ds ml dl fuel s).1 = .truncated →
      f.length ≤ (tm_loop f ds ml dl fuel s).2.rs.rpos) :=
  tm_loop_spec f ds ml dl fuel s

/-- C3 counterexample: a member ending in a Sync Flush marker (length
`min_match_len + 1 = 3`): `test_member` returns 4, though the claim states
code 4 is returned only for marker payloads other than end-of-stream or
sync-flush. -/
theorem C3_test_member_cex :
    test_member_code cexMember3 4096 100 = 4 ∧
    (tm_loop cexMember3 4096 (2 ^ 63 - 1) (2 ^ 63 - 1) 100
      (mt_loaded cexMember3 4096)).1 = .badMarker (min_match_len + 1) := by
  decide

/-- C3 witness: the amended theorem applied to the sync-flush member. -/
theorem C3_test_member_amended_witness :
    (tm_loop cexMember3 4096 (2 ^ 63 - 1) (2 ^ 63 - 1) 100
      (mt_loaded cexMember3 4096)).1 = .badMarker 3 ∧ (3 : Nat) ≠ min_match_len :=
  ⟨by decide,
   (C3_test_member_amended cexMember3 4096 (2 ^ 63 - 1) (2 ^ 63 - 1) 100
     (mt_loaded cexMember3 4096)).1 3 (by decide)⟩

/-! ### Byte repair (byte_repair.cc) -/

/-- `test_member_rest` (byte_repair.cc lines 110-118): copy the master
tester (`duplicate_buffer` copies the decoded dictionary into a scratch
buffer; values are copied implicitly in the model) and test the rest of the
(possibly modified) member buffer. -/
def test_member_rest (mbuf : List Nat) (ds : Nat) (master : MTState)
    (fuel : Nat) : Bool :=
  match test_member mbuf ds (2 ^ 63 - 1) (2 ^ 63 - 1) fuel master with
  | (code, s') => code == 0 && rm_finished mbuf s'.rs

/-- `prepare_master` (byte_repair.cc lines 97-107). -/
def prepare_master (mbuf : List Nat) (ds pos_limit fuel : Nat) :
    Option MTState :=
  match test_member mbuf ds pos_limit (2 ^ 63 - 1) fuel (mt_init ds) with
  | (code, s) => if code = -1 then some s else none

/-- `++mbuffer[pos]`: a `uint8_t` increment, wrapping at 256. -/
def bump (l : List Nat) (p : Nat) : List Nat :=
  l.set p ((l.getD p 0 + 1) % 256)

/-- The 255-iteration inner loop of `repair_member` (byte_repair.cc lines
141-147): increment, test, and on failure apply the final 256th increment
(line 147) restoring the byte. -/
def rm_try (ds fuel : Nat) (master : MTState) : Nat → List Nat → Nat →
    Bool × List Nat
  | 0, mbuf, p => (false, bump mbuf p)
  | j + 1, mbuf, p =>
    let mbuf := bump mbuf p
    if test_member_rest mbuf ds master fuel then (true, mbuf)
    else rm_try ds fuel master j mbuf p

/-- The position loop within one window (byte_repair.cc lines 134-148),
counting `n` positions from `p` down; returns the found position, the
buffer, and the final cursor. -/
def rm_posloop (ds fuel : Nat) (master : MTState) : Nat → Int → List Nat →
    Option Int × List Nat × Int
  | 0, p, mbuf => (none, mbuf, p)
  | n + 1, p, mbuf =>
    match rm_try ds fuel master 255 mbuf p.toNat with
    | (true, mbuf') => (some p, mbuf', p)
    | (false, mbuf') => rm_posloop ds fuel master n (p - 1) mbuf'

/-- The window loop of `repair_member` (byte_repair.cc lines 127-150):
each window prepares a master decoded up to `min_pos - 16` and probes the
100 (or fewer) positions down to `min_pos`.  Each window lowers the cursor,
so 50002 windows are never exhausted. -/
def rm_outer (ds fuel : Nat) (bg endp : Int) : Nat → Int → List Nat →
    Int × List Nat
  | 0, _, mbuf => (-2, mbuf)
  | w + 1, p, mbuf =>
    if bg ≤ p ∧ endp - 50000 < p then
      match prepare_master mbuf ds (max (max bg (p - 100) - 16) 0).toNat fuel with
      | none => (-1, mbuf)
      | some master =>
        match rm_posloop ds fuel master (p - max bg (p - 100) + 1).toNat p mbuf with
        | (some fp, mbuf2, _) => (fp, mbuf2)
        | (none, mbuf2, p2) => rm_outer ds fuel bg endp w p2 mbuf2
    else (0, mbuf)

/-- `repair_member` (byte_repair.cc lines 121-153), returning the code
(-1 master failed, 0 begin reached, > 0 repaired position; -2 only for
exhausted window fuel, unreachable) and the final member buffer. -/
def repair_member (mbuf : List Nat) (ds : Nat) (bg endp : Int) (fuel : Nat) :
    Int × List Nat :=
  rm_outer ds fuel bg endp 50002 endp mbuf

theorem getD_set_self (l : List Nat) (p a : Nat) (h : p < l.length) :
    (l.set p a).getD p 0 = a := by
  rw [List.getD_eq_getElem?_getD, List.getElem?_set_self (by omega)]
  simp

theorem list_set_getD_self (l : List Nat) (p : Nat) (h : p < l.length) :
    l.set p (l.getD p 0) = l := by
  apply List.ext_getElem?
  intro i
  by_cases hi : i = p
  · subst hi
    rw [List.getElem?_set_self (by omega), List.getD_eq_getElem l 0 h]
    simp [List.getElem?_eq_getElem h]
  · rw [List.getElem?_set_ne (by omega)]

theorem bump_set (l : List Nat) (p b : Nat) (h : p < l.length) :
    bump (l.set p b) p = l.set p ((b + 1) % 256) := by
  unfold bump
  rw [getD_set_self l p b h, List.set_set]

/-- The inner loop, started from the byte bumped `c` times: on failure the
byte has been bumped `c + j + 1` times in total; on success some delta in
`(c, c + j]` is live. -/
theorem rm_try_spec (ds fuel : Nat) (master : MTState) (mbuf : List Nat)
    (p : Nat) (hp : p < mbuf.length) : ∀ j c,
    ((rm_try ds fuel master j (mbuf.set p ((mbuf.getD p 0 + c) % 256)) p).1 = false →
      (rm_try ds fuel master j (mbuf.set p ((mbuf.getD p 0 + c) % 256)) p).2 =
        mbuf.set p ((mbuf.getD p 0 + (c + j + 1)) % 256)) ∧
    ((rm_try ds fuel master j (mbuf.set p ((mbuf.getD p 0 + c) % 256)) p).1 = true →
      ∃ d, c + 1 ≤ d ∧ d ≤ c + j ∧
        (rm_try ds fuel master j (mbuf.set p ((mbuf.getD p 0 + c) % 256)) p).2 =
          mbuf.set p ((mbuf.getD p 0 + d) % 256)) := by
  intro j
  induction j with
  | zero =>
    intro c
    constructor
    · intro _
      show bump (mbuf.set p ((mbuf.getD p 0 + c) % 256)) p = _
      rw [bump_set _ _ _ hp]
      congr 1
      omega
    · intro ht
      simp [rm_try] at ht
  | succ j ih =>
    intro c
    have hbm : bump (mbuf.set p ((mbuf.getD p 0 + c) % 256)) p =
        mbuf.set p ((mbuf.getD p 0 + (c + 1)) % 256) := by
      rw [bump_set _ _ _ hp]
      congr 1
      omega
    have hstep : rm_try ds fuel master (j + 1)
        (mbuf.set p ((mbuf.getD p 0 + c) % 256)) p =
        (if test_member_rest (mbuf.set p ((mbuf.getD p 0 + (c + 1)) % 256)) ds
            master fuel
         then (true, mbuf.set p ((mbuf.getD p 0 + (c + 1)) % 256))
         else rm_try ds fuel master j
           (mbuf.set p ((mbuf.getD p 0 + (c + 1)) % 256)) p) := by
      simp only [rm_try]
      rw [hbm]
    rw [hstep]
    by_cases htest : test_member_rest
        (mbuf.set p ((mbuf.getD p 0 + (c + 1)) % 256)) ds master fuel
    · rw [if_pos htest]
      constructor
      · intro hf
        cases hf
      · intro _
        exact ⟨c + 1, le_refl _, by omega, rfl⟩
    · rw [if_neg htest]
      obtain ⟨hF, hT⟩ := ih (c + 1)
      constructor
      · intro hf
        rw [hF hf]
        congr 1
        omega
      · intro ht
        obtain ⟨d, h1, h2, h3⟩ := hT ht
        exact ⟨d, by omega, by omega, h3⟩

/-- The inner loop on the unmodified buffer: 255 failures restore the byte
exactly; success leaves a single byte bumped by a delta in `[1, 255]`. -/
theorem rm_try_255_spec (ds fuel : Nat) (master : MTState) (mbuf : List Nat)
    (p : Nat) (hp : p < mbuf.length) (hb : mbuf.getD p 0 < 256) :
    ((rm_try ds fuel master 255 mbuf p).1 = false →
      (rm_try ds fuel master 255 mbuf p).2 = mbuf) ∧
    ((rm_try ds fuel master 255 mbuf p).1 = true →
      ∃ d, 1 ≤ d ∧ d ≤ 255 ∧
        (rm_try ds fuel master 255 mbuf p).2 =
          mbuf.set p ((mbuf.getD p 0 + d) % 256)) := by
  have h0 : mbuf.set p ((mbuf.getD p 0 + 0) % 256) = mbuf := by
    rw [Nat.add_zero, Nat.mod_eq_of_lt hb]
    exact list_set_getD_self mbuf p hp
  obtain ⟨hF, hT⟩ := rm_try_spec ds fuel master mbuf p hp 255 0
  rw [h0] at hF hT
  constructor
  · intro hf
    rw [hF hf]
    have he : (mbuf.getD p 0 + (0 + 255 + 1)) % 256 = mbuf.getD p 0 := by
      omega
    rw [he]
    exact list_set_getD_self mbuf p hp
  · intro ht
    obtain ⟨d, h1, h2, h3⟩ := hT ht
    exact ⟨d, by omega, by omega, h3⟩

/-- The position loop probes `n` positions downward; on failure every
probed byte has been restored, on success exactly the found position's byte
is bumped by a delta in `[1, 255]`. -/
theorem rm_posloop_spec (ds fuel : Nat) (master : MTState) :
    ∀ (n : Nat) (p : Int) (mbuf : List Nat),
    (n : Int) ≤ p + 1 → p < (mbuf.length : Int) → (∀ b ∈ mbuf, b < 256) →
    ((rm_posloop ds fuel master n p mbuf).1 = none →
      (rm_posloop ds fuel master n p mbuf).2.1 = mbuf ∧
      (rm_posloop ds fuel master n p mbuf).2.2 = p - n) ∧
    (∀ fp, (rm_posloop ds fuel master n p mbuf).1 = some fp →
      p - n < fp ∧ fp ≤ p ∧ ∃ d, 1 ≤ d ∧ d ≤ 255 ∧
        (rm_posloop ds fuel master n p mbuf).2.1 =
          mbuf.set fp.toNat ((mbuf.getD fp.toNat 0 + d) % 256)) := by
  intro n
  induction n with
  | zero =>
    intro p mbuf _ _ _
    refine ⟨fun _ => ⟨rfl, by simp [rm_posloop]⟩, ?_⟩
    intro fp h
    simp [rm_posloop] at h
  | succ n ih =>
    intro p mbuf hn hlen hbytes
    have hp0 : (0 : Int) ≤ p := by omega
    have hpn : p.toNat < mbuf.length := by omega
    have hbyte : mbuf.getD p.toNat 0 < 256 := by
      rw [List.getD_eq_getElem mbuf 0 hpn]
      exact hbytes _ (mbuf.getElem_mem hpn)
    obtain ⟨hF, hT⟩ := rm_try_255_spec ds fuel master mbuf p.toNat hpn hbyte
    rcases ht : rm_try ds fuel master 255 mbuf p.toNat with ⟨found, mbuf'⟩
    rw [ht] at hF hT
    cases found with
    | false =>
      have hm : mbuf' = mbuf := hF rfl
      rw [hm] at ht
      have hrec : rm_posloop ds fuel master (n + 1) p mbuf =
          rm_posloop ds fuel master n (p - 1) mbuf := by
        simp only [rm_posloop]
        simp only [ht]
      rw [hrec]
      obtain ⟨ihN, ihS⟩ := ih (p - 1) mbuf (by omega) (by omega) hbytes
      constructor
      · intro h
        obtain ⟨h1, h2⟩ := ihN h
        exact ⟨h1, by omega⟩
      · intro fp h
        obtain ⟨ha, hb2, hd⟩ := ihS fp h
        exact ⟨by omega, by omega, hd⟩
    | true =>
      have hrec : rm_posloop ds fuel master (n + 1) p mbuf =
          (some p, mbuf', p) := by
        simp only [rm_posloop]
        simp only [ht]
      rw [hrec]
      constructor
      · intro h
        cases h
      · intro fp h
        have hfp : fp = p := by
          simpa using h.symm
        subst hfp
        obtain ⟨d, h1, h2, h3⟩ := hT rfl
        exact ⟨by omega, le_refl _, d, h1, h2, h3⟩

/-- The window loop: a nonpositive return leaves the buffer untouched; a
positive return is a probed position with exactly its byte bumped. -/
theorem rm_outer_spec (ds fuel : Nat) (bg endp : Int) (hbg : 1 ≤ bg) :
    ∀ w (p : Int) (mbuf : List Nat),
    p ≤ endp → endp < (mbuf.length : Int) → (∀ b ∈ mbuf, b < 256) →
    ((rm_outer ds fuel bg endp w p mbuf).1 ≤ 0 →
      (rm_outer ds fuel bg endp w p mbuf).2 = mbuf) ∧
    (0 < (rm_outer ds fuel bg endp w p mbuf).1 →
      bg ≤ (rm_outer ds fuel bg endp w p mbuf).1 ∧
      (rm_outer ds fuel bg endp w p mbuf).1 ≤ endp ∧
      ∃ d, 1 ≤ d ∧ d ≤ 255 ∧
        (rm_outer ds fuel bg endp w p mbuf).2 =
          mbuf.set (rm_outer ds fuel bg endp w p mbuf).1.toNat
            ((mbuf.getD (rm_outer ds fuel bg endp w p mbuf).1.toNat 0 + d) % 256)) := by
  intro w
  induction w with
  | zero =>
    intro p mbuf _ _ _
    exact ⟨fun _ => rfl, fun h => absurd h (by simp [rm_outer])⟩
  | succ w ih =>
    intro p mbuf hpe hlen hbytes
    by_cases hc : bg ≤ p ∧ endp - 50000 < p
    · have hmp : max bg (p - 100) ≤ p := by omega
      have hn : ((p - max bg (p - 100) + 1).toNat : Int) = p - max bg (p - 100) + 1 := by
        omega
      rcases hpm : prepare_master mbuf ds (max (max bg (p - 100) - 16) 0).toNat fuel
        with _ | master
      · have hrec : rm_outer ds fuel bg endp (w + 1) p mbuf = (-1, mbuf) := by
          simp only [rm_outer]
          rw [if_pos hc]
          simp only [hpm]
        rw [hrec]
        exact ⟨fun _ => rfl, fun h => absurd h (by norm_num)⟩
      · obtain ⟨plN, plS⟩ := rm_posloop_spec ds fuel master
          (p - max bg (p - 100) + 1).toNat p mbuf (by omega) (by omega) hbytes
        rcases hpl : rm_posloop ds fuel master (p - max bg (p - 100) + 1).toNat p mbuf
          with ⟨r1, mbuf2, p2⟩
        rw [hpl] at plN plS
        cases r1 with
        | none =>
          obtain ⟨hm2, hp2⟩ := plN rfl
          have hm2' : mbuf2 = mbuf := hm2
          have hp2' : p2 = p - ((p - max bg (p - 100) + 1).toNat : Int) := hp2
          have hrec : rm_outer ds fuel bg endp (w + 1) p mbuf =
              rm_outer ds fuel bg endp w p2 mbuf2 := by
            simp only [rm_outer]
            rw [if_pos hc]
            simp only [hpm, hpl]
          rw [hrec, hm2']
          exact ih p2 mbuf (by omega) hlen hbytes
        | some fp =>
          obtain ⟨hgt, hle, d, h1, h2, h3⟩ := plS fp rfl
          have h3' : mbuf2 = mbuf.set fp.toNat ((mbuf.getD fp.toNat 0 + d) % 256) := h3
          have hrec : rm_outer ds fuel bg endp (w + 1) p mbuf = (fp, mbuf2) := by
            simp only [rm_outer]
            rw [if_pos hc]
            simp only [hpm, hpl]
          rw [hrec]
          constructor
          · intro hf
            have hf' : fp ≤ 0 := hf
            exfalso
            omega
          · intro _
            refine ⟨?_, ?_, d, h1, h2, ?_⟩
            · show bg ≤ fp
              omega
            · show fp ≤ endp
              omega
            · show mbuf2 = mbuf.set fp.toNat ((mbuf.getD fp.toNat 0 + d) % 256)
              exact h3'
    · have hrec : rm_outer ds fuel bg endp (w + 1) p mbuf = (0, mbuf) := by
        simp only [rm_outer]
        rw [if_neg hc]
      rw [hrec]
      exact ⟨fun _ => rfl, fun h => absurd h (by norm_num)⟩

/-- C10: byte-repair probing is non-destructive.  For every member buffer
of bytes, repair range with `1 ≤ begin` (the callers pass `Lzip_header::size
+ 1` or more) and `end` inside the buffer: whenever `repair_member` returns
0 or -1 the buffer is byte-for-byte identical to its state on entry, and
when it returns a position `pos > 0` exactly the byte at `pos` differs from
the input, incremented by a delta in `[1, 255]` modulo 256. -/
theorem C10_repair_member (mbuf : List Nat) (ds : Nat) (bg endp : Int)
    (fuel : Nat) (hbg : 1 ≤ bg) (hend : endp < (mbuf.length : Int))
    (hbytes : ∀ b ∈ mbuf, b < 256) :
    ((repair_member mbuf ds bg endp fuel).1 ≤ 0 →
      (repair_member mbuf ds bg endp fuel).2 = mbuf) ∧
    (0 < (repair_member mbuf ds bg endp fuel).1 →
      bg ≤ (repair_member mbuf ds bg endp fuel).1 ∧
      (repair_member mbuf ds bg endp fuel).1 ≤ endp ∧
      ∃ d, 1 ≤ d ∧ d ≤ 255 ∧
        (repair_member mbuf ds bg endp fuel).2 =
          mbuf.set (repair_member mbuf ds bg endp fuel).1.toNat
            ((mbuf.getD (repair_member mbuf ds bg endp fuel).1.toNat 0 + d) % 256)) :=
  rm_outer_spec ds fuel bg endp hbg 50002 endp mbuf (le_refl _) hend hbytes

/-- `okMember` with the first byte of the trailer's data-size field set to
255: one increment (wrapping to 0) restores the intact member. -/
def repairFile : List Nat :=
  [76, 90, 73, 80, 1, 12, 0, 131, 255, 251, 255, 255, 192, 0, 0, 0, 0, 0, 0, 0,
   255, 0, 0, 0, 0, 0, 0, 0, 36, 0, 0, 0, 0, 0, 0, 0]

/-- C10 witness: repairing `repairFile` over the single position 20
succeeds at the first increment, and the theorem's frame property is
inhabited there. -/
theorem C10_repair_member_witness :
    (0 : Int) < (repair_member repairFile 4096 20 20 100).1 ∧
    ((20 : Int) ≤ (repair_member repairFile 4096 20 20 100).1 ∧
     (repair_member repairFile 4096 20 20 100).1 ≤ 20 ∧
     ∃ d, 1 ≤ d ∧ d ≤ 255 ∧
       (repair_member repairFile 4096 20 20 100).2 =
         repairFile.set (repair_member repairFile 4096 20 20 100).1.toNat
           ((repairFile.getD (repair_member repairFile 4096 20 20 100).1.toNat 0
             + d) % 256)) :=
  ⟨by decide,
   (C10_repair_member repairFile 4096 20 20 100 (by decide) (by decide)
     (by decide)).2 (by decide)⟩

/-! ### Range decompression (range_dec.cc) -/

/-- Modelled from the spec: `decompress_member` (range_dec.cc lines 38-79)
drives `LZ_decoder::decode_member` from decoder.cc, which is absent from
this repository's src/.  Per the spec, the member is decoded from its start
through its end-of-stream marker with its trailer verified — abstracted as
the oracle `dec` returning the member's full decoded data, or `none` for a
corrupt member — and only the slice `[outskip, outend)` of the decoded data
is written to the output; a member delivering fewer than `outend` bytes is
an error (range_dec.cc lines 68-76). -/
def decompress_member (dec : List Nat → Option (List Nat)) (f : List Nat)
    (mpos msize outskip outend : Nat) : Option (List Nat) :=
  match dec (subbytes f mpos msize) with
  | none => none
  | some dta =>
    if dta.length < outend then none
    else some ((dta.drop outskip).take (outend - outskip))

/-- `range_decompress` (range_dec.cc lines 124-186), its member loop (lines
163-178): for each indexed member whose data block overlaps `[a, b)`,
decode it with `outskip = max 0 (a - db.pos)` and
`outend = min db.size (b - db.pos)` and concatenate the outputs; a failed
member fails the whole call (`cleanup_and_fail`, no `--ignore-errors`). -/
def range_decompress (dec : List Nat → Option (List Nat)) (f : List Nat) :
    List IMember → Nat → Nat → Option (List Nat)
  | [], _, _ => some []
  | m :: rest, a, b =>
    if a < m.dend ∧ m.dpos < b then
      match decompress_member dec f m.mpos m.msize (a - m.dpos)
          (min m.dsize (b - m.dpos)),
        range_decompress dec f rest a b with
      | some dta, some out => some (dta ++ out)
      | _, _ => none
    else range_decompress dec f rest a b

/-- Slice concatenation, overlapping head: the head member's clipped slice
followed by the tail's slice is the global slice. -/
theorem slice_append (x y : List Nat) (a b o : Nat)
    (ha : a < o + x.length) (hob : o < b) :
    (x.drop (a - o)).take (min x.length (b - o) - (a - o)) ++
      (y.drop (a - (o + x.length))).take (b - max a (o + x.length)) =
    ((x ++ y).drop (a - o)).take (b - max a o) := by
  rw [List.drop_append_eq_append_drop, List.take_append_eq_append_take]
  have hlen : (x.drop (a - o)).length = x.length - (a - o) := by simp
  congr 1
  · by_cases hb : b - o ≤ x.length
    · have e : min x.length (b - o) - (a - o) = b - max a o := by omega
      rw [e]
    · rw [List.take_of_length_le (by rw [hlen]; omega),
        List.take_of_length_le (by rw [hlen]; omega)]
  · have e1 : a - (o + x.length) = a - o - x.length := by omega
    have e2 : b - max a (o + x.length) = b - max a o - (x.drop (a - o)).length := by
      rw [hlen]; omega
    rw [e1, e2]

/-- Slice concatenation, non-overlapping head: the head contributes
nothing. -/
theorem slice_append_none (x y : List Nat) (a b o : Nat)
    (h : ¬(a < o + x.length ∧ o < b)) :
    (y.drop (a - (o + x.length))).take (b - max a (o + x.length)) =
    ((x ++ y).drop (a - o)).take (b - max a o) := by
  by_cases hx : o + x.length ≤ a
  · rw [List.drop_append_eq_append_drop,
      List.drop_eq_nil_of_le (show x.length ≤ a - o by omega), List.nil_append]
    have e1 : a - (o + x.length) = a - o - x.length := by omega
    have e2 : b - max a (o + x.length) = b - max a o := by omega
    rw [e1, e2]
  · have ha : a < o + x.length := by omega
    have hb0 : b ≤ o := by
      by_contra hbo
      exact h ⟨ha, by omega⟩
    have t1 : b - max a (o + x.length) = 0 := by omega
    have t2 : b - max a o = 0 := by omega
    rw [t1, t2, List.take_zero, List.take_zero]

/-- A corrupt member overlapping the range fails the whole call. -/
theorem range_decompress_corrupt (dec : List Nat → Option (List Nat))
    (f : List Nat) : ∀ (ms : List IMember) (a b : Nat), ∀ m ∈ ms,
    (a < m.dend ∧ m.dpos < b) → dec (subbytes f m.mpos m.msize) = none →
    range_decompress dec f ms a b = none := by
  intro ms
  induction ms with
  | nil =>
    intro a b m hm
    cases hm
  | cons m0 rest ih =>
    intro a b m hm hov hnone
    rcases List.mem_cons.mp hm with rfl | hm'
    · simp only [range_decompress]
      rw [if_pos hov]
      simp [decompress_member, hnone]
    · have hrec := ih a b m hm' hov hnone
      simp only [range_decompress]
      by_cases hov0 : a < m0.dend ∧ m0.dpos < b
      · rw [if_pos hov0, hrec]
        rcases hdm : decompress_member dec f m0.mpos m0.msize (a - m0.dpos)
            (min m0.dsize (b - m0.dpos)) with _ | dta <;> simp
      · rw [if_neg hov0]
        exact hrec

/-- The member loop produces exactly the global slice, by induction along
the chained data blocks; `o` is the data position of the current head. -/
theorem range_decompress_slice (dec : List Nat → Option (List Nat))
    (f : List Nat) (d : IMember → List Nat) :
    ∀ (ms : List IMember) (a b o : Nat),
    ms.Chain' (fun x y => y.dpos = x.dend) →
    (∀ m ∈ ms, dec (subbytes f m.mpos m.msize) = some (d m) ∧
      (d m).length = m.dsize) →
    (∀ m0 ∈ ms.head?, m0.dpos = o) →
    b ≤ o + ((ms.map d).flatten).length →
    range_decompress dec f ms a b =
      some ((((ms.map d).flatten).drop (a - o)).take (b - max a o)) := by
  intro ms
  induction ms with
  | nil =>
    intro a b o _ _ _ _
    simp [range_decompress]
  | cons m rest ih =>
    intro a b o hch hdec hhd hb
    have hdm := hdec m (List.mem_cons_self m rest)
    have ho : m.dpos = o := hhd m (by simp)
    have hL : (d m).length = m.dsize := hdm.2
    have hend : m.dend = o + (d m).length := by
      unfold IMember.dend
      omega
    have hrest_hd : ∀ m0 ∈ rest.head?, m0.dpos = o + (d m).length := by
      intro m0 h0
      have h1 := (List.chain'_cons'.mp hch).1 m0 h0
      rw [h1, hend]
    have hch' := (List.chain'_cons'.mp hch).2
    have hdec' : ∀ mm ∈ rest, dec (subbytes f mm.mpos mm.msize) = some (d mm) ∧
        (d mm).length = mm.dsize :=
      fun mm hmm => hdec mm (List.mem_cons_of_mem _ hmm)
    have hflat : (((m :: rest).map d).flatten).length =
        (d m).length + ((rest.map d).flatten).length := by
      simp
    have hrec := ih a b (o + (d m).length) hch' hdec' hrest_hd (by omega)
    simp only [range_decompress]
    by_cases hov : a < m.dend ∧ m.dpos < b
    · rw [if_pos hov]
      have hout : ¬ (d m).length < min m.dsize (b - m.dpos) := by
        rw [hL]
        omega
      have hdecomp : decompress_member dec f m.mpos m.msize (a - m.dpos)
          (min m.dsize (b - m.dpos)) =
          some (((d m).drop (a - m.dpos)).take
            (min m.dsize (b - m.dpos) - (a - m.dpos))) := by
        unfold decompress_member
        simp only [hdm.1]
        rw [if_neg hout]
      rw [hdecomp, hrec, ho, ← hL]
      exact congrArg some (slice_append (d m) ((rest.map d).flatten) a b o
        (by omega) (by omega))
    · rw [if_neg hov, hrec]
      have h' : ¬(a < o + (d m).length ∧ o < b) := by
        intro hcon
        exact hov ⟨by omega, by omega⟩
      exact congrArg some (slice_append_none (d m) ((rest.map d).flatten) a b o h')

/-- C5: range-decompress equality over a successfully built index.  If
every member of the index decodes (through its verified trailer) to its
indexed data size, `range_decompress` outputs exactly the bytes `[a, b)` of
the full decompression; and whenever a member overlapping the range is
corrupt, the whole call fails — partial output never accepts corrupt
input. -/
theorem C5_range_decompress (dec : List Nat → Option (List Nat))
    (f : List Nat) (d : IMember → List Nat) (cl : ClOpts) (ibd : Bool)
    (mp : Nat) (ms : List IMember) (dm : Nat) (a b : Nat)
    (hidx : Lzip_index_build f cl ibd false mp = .ok ms dm) :
    ((∀ m ∈ ms, dec (subbytes f m.mpos m.msize) = some (d m) ∧
        (d m).length = m.dsize) →
      b ≤ ((ms.map d).flatten).length →
      range_decompress dec f ms a b =
        some ((((ms.map d).flatten).drop a).take (b - a))) ∧
    (∀ m ∈ ms, (a < m.dend ∧ m.dpos < b) →
      dec (subbytes f m.mpos m.msize) = none →
      range_decompress dec f ms a b = none) := by
  constructor
  · intro hdec hb
    obtain ⟨-, hok⟩ := Lzip_index_build_spec f cl ibd false mp _ rfl
    obtain ⟨-, hdch, hhd0, -⟩ := hok ms dm hidx
    have h := range_decompress_slice dec f d ms a b 0 hdch hdec
      (by intro m0 h0; exact hhd0 m0 h0) (by omega)
    simpa using h
  · exact range_decompress_corrupt dec f ms a b

/-- C5 witness: the one-member index of `okFile`, an oracle decoding its
member to ten bytes, and the range `[2, 5)`. -/
theorem C5_range_decompress_witness :
    range_decompress (fun _ => some [10, 11, 12, 13, 14, 15, 16, 17, 18, 19])
      okFile [⟨0, 10, 0, 36, 4096⟩] 2 5 = some [12, 13, 14] := by
  have h := (C5_range_decompress
      (fun _ => some [10, 11, 12, 13, 14, 15, 16, 17, 18, 19]) okFile
      (fun _ => [10, 11, 12, 13, 14, 15, 16, 17, 18, 19])
      ⟨false, false, false, false⟩ false 0 [⟨0, 10, 0, 36, 4096⟩] 4096 2 5
      (by decide)).1
      (by
        intro m hm
        rw [List.mem_singleton] at hm
        subst hm
        exact ⟨rfl, by decide⟩)
      (by decide)
  simpa using h

/-! ### GF(2^8) arithmetic (gf8.cc, struct Galois8_table)

Addition is exclusive or.  The tables are built from the generator
polynomial 0x11D by the loop of `Galois8_table::init` (gf8.cc lines
46-63): `b` starts at 1 and is repeatedly shifted and reduced; `ilog[i]`
is the i-th power of x and `log` is its inverse permutation. -/

/-- One step of the table loop: `b <<= 1; if (b & 256) b ^= 0x11D`. -/
def xstep (b : Nat) : Nat :=
  if (b <<< 1) &&& 256 ≠ 0 then (b <<< 1) ^^^ 0x11D else b <<< 1

/-- `ilog[i]` for `i < 255`: the i-th power of x. -/
def ilogList : List Nat := (List.range 255).map (fun i => xstep^[i] 1)

/-- `log` (gf8.cc lines 48, 53): `log 0` is the special value 255. -/
def logv (b : Nat) : Nat := if b = 0 then 255 else ilogList.indexOf b

/-- `ilog` (gf8.cc lines 49, 54): `ilog[255] = 1`. -/
def ilogv (i : Nat) : Nat := if i = 255 then 1 else ilogList.getD i 0

/-- `mul_table` (gf8.cc lines 56-63). -/
def mul_table (i j : Nat) : Nat :=
  if i = 0 ∨ j = 0 then 0 else ilogv ((logv i + logv j) % 255)

/-- `Galois8_table::inverse` (gf8.cc line 66). -/
def ginv (a : Nat) : Nat := ilogv (255 - logv a)

/-- Reference multiplication: Russian-peasant product modulo 0x11D, used
to relate the table product to the ring axioms. -/
def pmul_go : Nat → Nat → Nat → Nat
  | 0, _, _ => 0
  | n + 1, a, b => (if a % 2 = 1 then b else 0) ^^^ pmul_go n (a >>> 1) (xstep b)

def pmul (a b : Nat) : Nat := pmul_go 8 a b

theorem xstep_lt : ∀ b < 256, xstep b < 256 := by decide

theorem shiftLeft_one_xor (a b : Nat) : (a ^^^ b) <<< 1 = a <<< 1 ^^^ b <<< 1 := by
  apply Nat.eq_of_testBit_eq
  intro i
  simp [Nat.testBit_shiftLeft, Nat.testBit_xor]
  cases Nat.decLe 1 i with
  | isTrue h => simp [h]
  | isFalse h => simp [h]

theorem and256 (x : Nat) : x &&& 256 = if x.testBit 8 then 256 else 0 := by
  have h := Nat.and_two_pow x 8
  rw [show (256 : Nat) = 2 ^ 8 by norm_num, h]
  cases x.testBit 8 <;> simp

theorem nat_xor_left_comm (a b c : Nat) : a ^^^ (b ^^^ c) = b ^^^ (a ^^^ c) := by
  rw [← Nat.xor_assoc, Nat.xor_comm a b, Nat.xor_assoc]

theorem xstep_xor (b c : Nat) : xstep (b ^^^ c) = xstep b ^^^ xstep c := by
  unfold xstep
  rw [shiftLeft_one_xor, Nat.and_xor_distrib_right, and256 (b <<< 1), and256 (c <<< 1)]
  cases hb : (b <<< 1).testBit 8 <;> cases hc : (c <<< 1).testBit 8 <;>
    simp [Nat.xor_assoc, Nat.xor_comm, nat_xor_left_comm]

theorem xstep_zero : xstep 0 = 0 := by decide

theorem pmul_go_lt : ∀ n a b, b < 256 → pmul_go n a b < 256 := by
  intro n
  induction n with
  | zero => intro a b _; simp [pmul_go]
  | succ n ih =>
    intro a b hb
    have h1 : (if a % 2 = 1 then b else 0) < 256 := by
      split <;> omega
    have h2 := ih (a >>> 1) (xstep b) (xstep_lt b hb)
    calc pmul_go (n + 1) a b < 2 ^ 8 := by
          have h1' : (if a % 2 = 1 then b else 0) < 2 ^ 8 := by split <;> omega
          have h2' : pmul_go n (a >>> 1) (xstep b) < 2 ^ 8 := by omega
          exact Nat.xor_lt_two_pow h1' h2'
      _ = 256 := by norm_num

theorem pmul_go_xstep : ∀ n a b, b < 256 →
    pmul_go n a (xstep b) = xstep (pmul_go n a b) := by
  intro n
  induction n with
  | zero => intro a b _; simp [pmul_go, xstep_zero]
  | succ n ih =>
    intro a b hb
    show (if a % 2 = 1 then xstep b else 0) ^^^ pmul_go n (a >>> 1) (xstep (xstep b)) = _
    rw [ih (a >>> 1) (xstep b) (xstep_lt b hb)]
    have h1 : (if a % 2 = 1 then b else 0) < 256 := by split <;> omega
    have h2 : pmul_go n (a >>> 1) (xstep b) < 256 :=
      pmul_go_lt n _ _ (xstep_lt b hb)
    rw [show (if a % 2 = 1 then xstep b else 0) = xstep (if a % 2 = 1 then b else 0) by
      split <;> simp [xstep_zero]]
    rw [← xstep_xor]
    rfl

theorem pmul_one : ∀ a < 256, pmul a 1 = a := by decide

theorem pmul_zero_right : ∀ a < 256, pmul a 0 = 0 := by decide

theorem pmul_zero_left : ∀ b < 256, pmul 0 b = 0 := by decide

/-- Stepping the exponent multiplies by x, including the wrap at 254. -/
theorem ilogv_succ : ∀ r < 255, ilogv ((r + 1) % 255) = xstep (ilogv r) := by
  decide

theorem ilogv_lt : ∀ i < 255, 1 ≤ ilogv i ∧ ilogv i < 256 := by decide

theorem ilogv_logv : ∀ a, 1 ≤ a → a < 256 → ilogv (logv a) = a := by decide

theorem logv_ilogv : ∀ i < 255, logv (ilogv i) = i := by decide

theorem logv_lt : ∀ a, 1 ≤ a → a < 256 → logv a < 255 := by decide

theorem logv_one : logv 1 = 0 := by decide

/-- The peasant product realises the log-table product on powers of x. -/
theorem pmul_ilogv (s : Nat) (hs : s < 255) : ∀ t < 255,
    pmul (ilogv s) (ilogv t) = ilogv ((s + t) % 255) := by
  intro t
  induction t with
  | zero =>
    intro _
    have h1 : ilogv 0 = 1 := by decide
    have h2 : (s + 0) % 255 = s := by omega
    rw [h1, pmul_one _ (ilogv_lt s hs).2, h2]
  | succ t ih =>
    intro ht
    have ht' : t < 255 := by omega
    have hx : ilogv (t + 1) = xstep (ilogv t) := by
      have := ilogv_succ t ht'
      rw [Nat.mod_eq_of_lt ht] at this
      exact this
    rw [hx]
    show pmul_go 8 (ilogv s) (xstep (ilogv t)) = _
    rw [pmul_go_xstep 8 _ _ (ilogv_lt t ht').2]
    have hrec := ih ht'
    show xstep (pmul (ilogv s) (ilogv t)) = _
    rw [hrec]
    have hst : (s + t) % 255 < 255 := Nat.mod_lt _ (by norm_num)
    have := ilogv_succ ((s + t) % 255) hst
    rw [show ((s + t) % 255 + 1) % 255 = (s + (t + 1)) % 255 by omega] at this
    rw [← this]

/-- The source's table product equals the peasant product. -/
theorem mul_table_pmul : ∀ a < 256, ∀ b < 256, mul_table a b = pmul a b := by
  intro a ha b hb
  by_cases ha0 : a = 0
  · subst ha0
    rw [show mul_table 0 b = 0 from by simp [mul_table], pmul_zero_left b hb]
  · by_cases hb0 : b = 0
    · subst hb0
      rw [show mul_table a 0 = 0 from by simp [mul_table], pmul_zero_right a ha]
    · have h1 : mul_table a b = ilogv ((logv a + logv b) % 255) := by
        simp [mul_table, ha0, hb0]
      have hla := logv_lt a (by omega) ha
      have hlb := logv_lt b (by omega) hb
      have h2 := pmul_ilogv (logv a) hla (logv b) hlb
      rw [ilogv_logv a (by omega) ha, ilogv_logv b (by omega) hb] at h2
      rw [h1, ← h2]

theorem mul_table_lt : ∀ a, a < 256 → ∀ b, b < 256 → mul_table a b < 256 := by
  intro a _ b _
  unfold mul_table
  split
  · norm_num
  · exact (ilogv_lt _ (Nat.mod_lt _ (by norm_num))).2

theorem mul_table_nonzero_eq (a b : Nat) (ha0 : a ≠ 0) (hb0 : b ≠ 0) :
    mul_table a b = ilogv ((logv a + logv b) % 255) := by
  simp only [mul_table, if_neg (not_or.mpr ⟨ha0, hb0⟩)]

theorem mul_table_log : ∀ a, 1 ≤ a → a < 256 → ∀ b, 1 ≤ b → b < 256 →
    1 ≤ mul_table a b ∧ mul_table a b < 256 ∧
    logv (mul_table a b) = (logv a + logv b) % 255 := by
  intro a ha1 ha b hb1 hb
  have h1 : mul_table a b = ilogv ((logv a + logv b) % 255) :=
    mul_table_nonzero_eq a b (by omega) (by omega)
  have hm : (logv a + logv b) % 255 < 255 := Nat.mod_lt _ (by norm_num)
  exact ⟨h1 ▸ (ilogv_lt _ hm).1, h1 ▸ (ilogv_lt _ hm).2,
    by rw [h1, logv_ilogv _ hm]⟩

theorem mul_table_comm (a b : Nat) : mul_table a b = mul_table b a := by
  simp only [mul_table, Nat.add_comm, or_comm]

theorem mul_table_one : ∀ b, b < 256 → mul_table 1 b = b := by
  intro b hb
  by_cases hb0 : b = 0
  · simp [mul_table, hb0]
  · have h1 : mul_table 1 b = ilogv ((logv 1 + logv b) % 255) := by
      simp only [mul_table, if_neg (show ¬((1 : Nat) = 0 ∨ b = 0) by omega)]
    rw [h1, logv_one, Nat.zero_add, Nat.mod_eq_of_lt (logv_lt b (by omega) hb)]
    exact ilogv_logv b (by omega) hb

theorem mul_table_assoc : ∀ a, a < 256 → ∀ b, b < 256 → ∀ c, c < 256 →
    mul_table (mul_table a b) c = mul_table a (mul_table b c) := by
  intro a ha b hb c hc
  by_cases ha0 : a = 0
  · simp [mul_table, ha0]
  · by_cases hb0 : b = 0
    · simp [mul_table, hb0]
    · by_cases hc0 : c = 0
      · simp [mul_table, hc0]
      · obtain ⟨hab1, hab, habl⟩ := mul_table_log a (by omega) ha b (by omega) hb
        obtain ⟨hbc1, hbc, hbcl⟩ := mul_table_log b (by omega) hb c (by omega) hc
        have h1 : mul_table (mul_table a b) c =
            ilogv ((logv (mul_table a b) + logv c) % 255) :=
          mul_table_nonzero_eq (mul_table a b) c (by omega) (by omega)
        have h2 : mul_table a (mul_table b c) =
            ilogv ((logv a + logv (mul_table b c)) % 255) :=
          mul_table_nonzero_eq a (mul_table b c) (by omega) (by omega)
        rw [h1, h2, habl, hbcl]
        congr 1
        omega

theorem pmul_go_add_right : ∀ n a b c, b < 256 → c < 256 →
    pmul_go n a (b ^^^ c) = pmul_go n a b ^^^ pmul_go n a c := by
  intro n
  induction n with
  | zero => intro a b c _ _; simp [pmul_go]
  | succ n ih =>
    intro a b c hb hc
    show (if a % 2 = 1 then b ^^^ c else 0) ^^^ pmul_go n (a >>> 1) (xstep (b ^^^ c)) = _
    rw [xstep_xor b c, ih (a >>> 1) (xstep b) (xstep c) (xstep_lt b hb) (xstep_lt c hc)]
    show _ = ((if a % 2 = 1 then b else 0) ^^^ pmul_go n (a >>> 1) (xstep b)) ^^^
      ((if a % 2 = 1 then c else 0) ^^^ pmul_go n (a >>> 1) (xstep c))
    by_cases hp : a % 2 = 1 <;>
      simp [hp, Nat.xor_assoc, Nat.xor_comm, nat_xor_left_comm]

theorem mul_table_add_right : ∀ a, a < 256 → ∀ b, b < 256 → ∀ c, c < 256 →
    mul_table a (b ^^^ c) = mul_table a b ^^^ mul_table a c := by
  intro a ha b hb c hc
  have hbc : b ^^^ c < 256 := by
    have h : b ^^^ c < 2 ^ 8 := Nat.xor_lt_two_pow (by omega) (by omega)
    omega
  rw [mul_table_pmul a ha _ hbc, mul_table_pmul a ha b hb, mul_table_pmul a ha c hc]
  exact pmul_go_add_right 8 a b c hb hc

theorem ginv_bounds : ∀ a, a < 256 → 1 ≤ ginv a ∧ ginv a < 256 := by
  intro a _
  unfold ginv
  by_cases h : 255 - logv a = 255
  · rw [h]
    exact ⟨by decide, by decide⟩
  · exact ⟨(ilogv_lt _ (by omega)).1, (ilogv_lt _ (by omega)).2⟩

theorem ginv_lt : ∀ a, a < 256 → ginv a < 256 :=
  fun a ha => (ginv_bounds a ha).2

theorem mul_table_ginv : ∀ a, 1 ≤ a → a < 256 → mul_table a (ginv a) = 1 := by
  intro a h1 ha
  have hla := logv_lt a h1 ha
  by_cases h0 : logv a = 0
  · have ha1 : a = 1 := by
      have h := ilogv_logv a h1 ha
      rw [h0] at h
      rw [← h]
      decide
    subst ha1
    have hg : ginv 1 = 1 := by decide
    rw [hg]
    exact mul_table_one 1 (by norm_num)
  · have hs : 255 - logv a < 255 := by omega
    have hgb : 1 ≤ ginv a ∧ ginv a < 256 := ginv_bounds a ha
    have hmt : mul_table a (ginv a) = ilogv ((logv a + logv (ginv a)) % 255) := by
      simp only [mul_table, if_neg (show ¬(a = 0 ∨ ginv a = 0) by omega)]
    rw [hmt]
    unfold ginv
    rw [logv_ilogv _ hs, show (logv a + (255 - logv a)) % 255 = 0 by omega]
    decide

/-- Bytes as elements of GF(2^8): the carrier of the `gf` table struct. -/
structure G8 where
  val : Nat
  lt : val < 256
deriving DecidableEq

theorem G8.ext' {a b : G8} (h : a.val = b.val) : a = b := by
  cases a
  cases b
  simp only at h
  subst h
  rfl

instance : Zero G8 := ⟨⟨0, by norm_num⟩⟩
instance : One G8 := ⟨⟨1, by norm_num⟩⟩

def gadd (a b : G8) : G8 :=
  ⟨a.val ^^^ b.val, by
    have h : a.val ^^^ b.val < 2 ^ 8 :=
      Nat.xor_lt_two_pow (show a.val < 2 ^ 8 by have := a.lt; omega)
        (show b.val < 2 ^ 8 by have := b.lt; omega)
    omega⟩

def gmul (a b : G8) : G8 := ⟨mul_table a.val b.val, mul_table_lt _ a.lt _ b.lt⟩

/-- `gf.inverse` lifted to `G8`. -/
def gInv (a : G8) : G8 := ⟨ginv a.val, ginv_lt _ a.lt⟩

instance : Add G8 := ⟨gadd⟩
instance : Mul G8 := ⟨gmul⟩
instance : Neg G8 := ⟨id⟩

theorem G8.add_val (a b : G8) : (a + b).val = a.val ^^^ b.val := rfl
theorem G8.mul_val (a b : G8) : (a * b).val = mul_table a.val b.val := rfl
theorem G8.zero_val : (0 : G8).val = 0 := rfl
theorem G8.one_val : (1 : G8).val = 1 := rfl

instance : AddCommGroup G8 where
  add_assoc a b c := G8.ext' (by simp [G8.add_val, Nat.xor_assoc])
  zero_add a := G8.ext' (by simp [G8.add_val, G8.zero_val])
  add_zero a := G8.ext' (by simp [G8.add_val, G8.zero_val])
  add_comm a b := G8.ext' (by simp [G8.add_val, Nat.xor_comm])
  neg_add_cancel a := G8.ext' (by simp [G8.add_val, G8.zero_val]; rfl)
  nsmul := nsmulRec
  zsmul := zsmulRec

instance : CommRing G8 :=
  { (inferInstanceAs (AddCommGroup G8)) with
    mul := gmul
    one := (1 : G8)
    mul_assoc := fun a b c => G8.ext' (mul_table_assoc _ a.lt _ b.lt _ c.lt)
    one_mul := fun a => G8.ext' (show mul_table 1 a.val = a.val from mul_table_one _ a.lt)
    mul_one := fun a => G8.ext' (show mul_table a.val 1 = a.val from by
      rw [mul_table_comm]
      exact mul_table_one _ a.lt)
    left_distrib := fun a b c => G8.ext'
      (show mul_table a.val (b.val ^^^ c.val)
          = mul_table a.val b.val ^^^ mul_table a.val c.val from
        mul_table_add_right _ a.lt _ b.lt _ c.lt)
    right_distrib := fun a b c => G8.ext'
      (show mul_table (a.val ^^^ b.val) c.val
          = mul_table a.val c.val ^^^ mul_table b.val c.val from by
        rw [mul_table_comm (a.val ^^^ b.val), mul_table_comm a.val,
          mul_table_comm b.val]
        exact mul_table_add_right _ c.lt _ a.lt _ b.lt)
    zero_mul := fun a => G8.ext' (show mul_table 0 a.val = 0 from by simp [mul_table])
    mul_zero := fun a => G8.ext' (show mul_table a.val 0 = 0 from by simp [mul_table])
    mul_comm := fun a b => G8.ext' (mul_table_comm a.val b.val) }

instance : Field G8 :=
  { (inferInstanceAs (CommRing G8)) with
    inv := fun a => if a.val = 0 then 0 else gInv a
    exists_pair_ne := ⟨0, 1, by decide⟩
    mul_inv_cancel := fun a ha => by
      have hv : a.val ≠ 0 := by
        intro h0
        exact ha (G8.ext' (by rw [h0, G8.zero_val]))
      show a * (if a.val = 0 then 0 else gInv a) = 1
      rw [if_neg hv]
      exact G8.ext' (mul_table_ginv a.val (by omega) a.lt)
    inv_zero := by
      show (if (0 : G8).val = 0 then (0 : G8) else gInv 0) = 0
      exact if_pos rfl
    nnqsmul := _
    qsmul := _ }

/-- For nonzero elements the field inverse is the table inverse. -/
theorem G8.inv_eq_gInv (a : G8) (ha : a ≠ 0) : a⁻¹ = gInv a := by
  have hv : a.val ≠ 0 := fun h0 => ha (G8.ext' (by rw [h0, G8.zero_val]))
  exact inv_eq_of_mul_eq_one_right (G8.ext' (mul_table_ginv a.val (by omega) a.lt))

theorem G8.add_self (a : G8) : a + a = 0 := G8.ext' (Nat.xor_self a.val)

theorem G8.two_eq_zero : (2 : G8) = 0 := by
  rw [← one_add_one_eq_two]
  exact G8.add_self 1
